import Mathlib

/-!
Verification of the `rev-api` movie relay (src/app.py) against its
natural-language specification.

The development shallowly embeds the Python source:

* Python `str` values become Lean `String`/`List Char`; `str.find`/`str.rfind`
  with their `-1` sentinel become `Option Nat` valued helpers.
* byte strings become `List Nat` with every element `< 256`;
* fallible Python code becomes `Except PyExc`, where a `.error` value is an
  exception escaping the modelled block and a caught exception is folded into
  the string result exactly where the source's `try/except` does so;
* library calls (`base64`, `json`, PKCS7 `unpad`, UTF-8 codecs) are modelled
  by executable Lean implementations of the library behaviour on the envelope
  formats the program handles;
* the AES block permutation itself (`Crypto.Cipher.AES`) is kept as an
  explicit `BlockCipher` parameter: CBC chaining, padding and all envelope
  framing are modelled concretely, and theorems that need the cipher to be
  invertible take `BlockCipher.Valid` as a hypothesis.
-/

/-! ## Python string search primitives -/

/-- Index of the first occurrence of `c` in a character list, if any. -/
def firstIdx (c : Char) : List Char → Option Nat
  | [] => none
  | a :: rest => if a = c then some 0 else (firstIdx c rest).map (· + 1)

/-- Python `s.find(c, start)` for a single-character needle, with the `-1`
sentinel rendered as `none`. -/
def pyFindFrom (l : List Char) (c : Char) (start : Nat) : Option Nat :=
  (firstIdx c (l.drop start)).map (start + ·)

/-- Python `s.rfind(c, 0, stop)` for a single-character needle: the largest
index `i < stop` with `l[i] = c`, with the `-1` sentinel rendered as `none`. -/
def pyRfindBefore (l : List Char) (c : Char) (stop : Nat) : Option Nat :=
  (firstIdx c (l.take stop).reverse).map (fun j => (l.take stop).length - 1 - j)

/-! ## The Laravel string unwrapper (src/app.py lines 85-102) -/

/-- Lines 85-86: `if plaintext.startswith('"') and plaintext.endswith('"'):
plaintext = plaintext[1:-1]`. -/
def stripQuotes (l : List Char) : List Char :=
  if l.head? = some '"' ∧ l.getLast? = some '"' then (l.drop 1).dropLast else l

/-- Lines 90-102: strip the PHP serialized-string framing `s:N:"..."` + `;`.
`plaintext.find(':', 2)`, `plaintext.find('"', first_colon_index)` and
`plaintext.rfind('"', 0, len(plaintext) - 1)` become the `pyFindFrom` /
`pyRfindBefore` helpers; the slice `plaintext[first_quote_index + 1 :
last_quote_index]` becomes `(l.take lq).drop (fq + 1)`. -/
def stripPhpFraming (l : List Char) : List Char :=
  if l.take 2 = ['s', ':'] ∧ l.getLast? = some ';' then
    match pyFindFrom l ':' 2 with
    | none => l
    | some fc =>
      match pyFindFrom l '"' fc with
      | none => l
      | some fq =>
        match pyRfindBefore l '"' (l.length - 1) with
        | none => l
        | some lq => if fq < lq then (l.take lq).drop (fq + 1) else l
  else l

/-- The post-decryption cleaning of src/app.py lines 83-102: strip one
surrounding double-quote pair, then strip PHP `s:N:"..."` + `;` framing. -/
def unwrapLaravel (s : String) : String :=
  ⟨stripPhpFraming (stripQuotes s.data)⟩

/-- The landmark searches of lines 92-101 all failing (each `find`/`rfind`
returning `-1`, or the last quote not strictly after the first). -/
def landmarksMissing (l : List Char) : Prop :=
  pyFindFrom l ':' 2 = none
  ∨ (∃ fc, pyFindFrom l ':' 2 = some fc ∧ pyFindFrom l '"' fc = none)
  ∨ (∃ fc fq, pyFindFrom l ':' 2 = some fc ∧ pyFindFrom l '"' fc = some fq ∧
      pyRfindBefore l '"' (l.length - 1) = none)
  ∨ (∃ fc fq lq, pyFindFrom l ':' 2 = some fc ∧ pyFindFrom l '"' fc = some fq ∧
      pyRfindBefore l '"' (l.length - 1) = some lq ∧ ¬ fq < lq)

/-! ### Basic lemmas about the search primitives -/

theorem firstIdx_append_of_not_mem {c : Char} {l1 : List Char}
    (h : ∀ x ∈ l1, x ≠ c) (l2 : List Char) :
    firstIdx c (l1 ++ l2) = (firstIdx c l2).map (l1.length + ·) := by
  induction l1 with
  | nil => simp [Option.map_id]
  | cons a rest ih =>
    have ha : a ≠ c := h a (by simp)
    have ih' := ih (fun x hx => h x (by simp [hx]))
    simp only [List.cons_append, firstIdx, if_neg ha, List.append_eq]
    rw [ih']
    cases firstIdx c l2 with
    | none => rfl
    | some k => simp; omega

theorem firstIdx_cons_self (c : Char) (rest : List Char) :
    firstIdx c (c :: rest) = some 0 := by
  simp [firstIdx]

theorem unwrapLaravel_eq_self {s : String}
    (h1 : ¬ (s.data.head? = some '"' ∧ s.data.getLast? = some '"'))
    (h2 : ¬ (s.data.take 2 = ['s', ':'] ∧ s.data.getLast? = some ';')) :
    unwrapLaravel s = s := by
  have hq : stripQuotes s.data = s.data := by
    unfold stripQuotes; rw [if_neg h1]
  unfold unwrapLaravel
  rw [hq]
  unfold stripPhpFraming
  rw [if_neg h2]

theorem unwrapLaravel_data (s : String) :
    (unwrapLaravel s).data = stripPhpFraming (stripQuotes s.data) := rfl

theorem drop_length_append' {α : Type} (l1 l2 : List α) {n : Nat}
    (h : n = l1.length) : (l1 ++ l2).drop n = l2 := by
  subst h; exact List.drop_left l1 l2

theorem take_length_append' {α : Type} (l1 l2 : List α) {n : Nat}
    (h : n = l1.length) : (l1 ++ l2).take n = l1 := by
  subst h; exact List.take_left l1 l2

/-- Unwrapping a well-formed PHP serialized-string frame `s:N:"c";` yields the
content `c`, whatever the digit string `N` says about the length. -/
theorem unwrapLaravel_phpFrame (N c : String)
    (hN : ∀ ch ∈ N.data, ch.isDigit = true) :
    unwrapLaravel ("s:" ++ N ++ ":\"" ++ c ++ "\";") = c := by
  have hdata : ("s:" ++ N ++ ":\"" ++ c ++ "\";").data
      = 's' :: ':' :: (N.data ++ ':' :: '"' :: (c.data ++ ['"', ';'])) := by
    simp [String.data_append]
  set l : List Char := 's' :: ':' :: (N.data ++ ':' :: '"' :: (c.data ++ ['"', ';']))
    with hl
  have hNcolon : ∀ x ∈ N.data, x ≠ ':' := by
    intro x hx he
    have := hN x hx
    rw [he] at this
    exact absurd this (by decide)
  -- the quote-stripping step does not fire: the string starts with 's'
  have hquotes : stripQuotes l = l := by
    rw [stripQuotes, if_neg]
    simp [hl]
  -- last character is the trailing semicolon
  have hlast : l.getLast? = some ';' := by
    rw [← List.head?_reverse]
    simp [hl]
  -- landmark 1: the colon closing the length field
  have hfc : pyFindFrom l ':' 2 = some (N.data.length + 2) := by
    rw [pyFindFrom]
    have hdrop : l.drop 2 = N.data ++ ':' :: '"' :: (c.data ++ ['"', ';']) := rfl
    rw [hdrop, firstIdx_append_of_not_mem hNcolon, firstIdx_cons_self]
    simp only [Option.map_some', Option.some.injEq]
    omega
  -- landmark 2: the quote opening the content
  have hfq : pyFindFrom l '"' (N.data.length + 2) = some (N.data.length + 3) := by
    rw [pyFindFrom]
    have hdrop : l.drop (N.data.length + 2)
        = ':' :: '"' :: (c.data ++ ['"', ';']) := by
      have hre : l = ('s' :: ':' :: N.data) ++ (':' :: '"' :: (c.data ++ ['"', ';'])) := by
        simp [hl]
      rw [hre, drop_length_append' _ _
        (by simp only [List.length_cons])]
    rw [hdrop]
    have hone : firstIdx '"' (':' :: '"' :: (c.data ++ ['"', ';'])) = some 1 := by
      simp [firstIdx]
    rw [hone]
    simp only [Option.map_some', Option.some.injEq]
  -- total length
  have hlen : l.length = N.data.length + c.data.length + 6 := by
    simp only [hl, List.length_cons, List.length_append, List.length_nil]
    omega
  -- landmark 3: the last quote strictly before the trailing semicolon
  have hlq : pyRfindBefore l '"' (l.length - 1)
      = some (N.data.length + c.data.length + 4) := by
    rw [pyRfindBefore]
    have hre : l = (('s' :: ':' :: (N.data ++ ':' :: '"' :: c.data)) ++ ['"']) ++ [';'] := by
      simp [hl]
    have htake : l.take (l.length - 1)
        = ('s' :: ':' :: (N.data ++ ':' :: '"' :: c.data)) ++ ['"'] := by
      rw [hlen, hre, take_length_append']
      simp only [List.length_append, List.length_cons, List.length_nil]
      omega
    rw [htake]
    have hrev : ((('s' :: ':' :: (N.data ++ ':' :: '"' :: c.data)) ++ ['"'])).reverse
        = '"' :: ('s' :: ':' :: (N.data ++ ':' :: '"' :: c.data)).reverse := by
      rw [List.reverse_append]
      rfl
    rw [hrev, firstIdx_cons_self]
    simp only [Option.map_some', Option.some.injEq, List.length_append,
      List.length_cons, List.length_nil]
    omega
  -- assemble the body computation
  have htake2 : l.take (N.data.length + c.data.length + 4)
      = ('s' :: ':' :: N.data) ++ ([':', '"'] ++ c.data) := by
    have hre2 : l = (('s' :: ':' :: N.data) ++ ([':', '"'] ++ c.data)) ++ ['"', ';'] := by
      simp [hl]
    rw [hre2, take_length_append']
    simp only [List.length_append, List.length_cons, List.length_nil]
    omega
  have hdrop2 : ((('s' :: ':' :: N.data) ++ ([':', '"'] ++ c.data))).drop
      (N.data.length + 3 + 1) = c.data := by
    have hre3 : ('s' :: ':' :: N.data) ++ ([':', '"'] ++ c.data)
        = (('s' :: ':' :: N.data) ++ [':', '"']) ++ c.data := by
      simp
    rw [hre3, drop_length_append' _ _
      (by simp only [List.length_append, List.length_cons, List.length_nil])]
  have hmain : stripPhpFraming l = c.data := by
    rw [stripPhpFraming, if_pos (And.intro (show List.take 2 l = ['s', ':'] from rfl) hlast)]
    simp only [hfc, hfq, hlq]
    rw [if_pos (show N.data.length + 3 < N.data.length + c.data.length + 4 by omega)]
    rw [htake2, hdrop2]
  show String.mk (stripPhpFraming (stripQuotes
    (("s:" ++ N ++ ":\"" ++ c ++ "\";").data))) = c
  rw [hdata, hquotes, hmain]

/-- When the `s:`/`;` shape is present but the landmark searches fail, the
string passes through the unwrapper unchanged. -/
theorem unwrapLaravel_landmarks_missing (s : String)
    (hshape : s.data.take 2 = ['s', ':']) (hsemi : s.data.getLast? = some ';')
    (hmiss : landmarksMissing s.data) :
    unwrapLaravel s = s := by
  have hhead : s.data.head? = some 's' := by
    cases hd : s.data with
    | nil => rw [hd] at hshape; simp at hshape
    | cons a t =>
      rw [hd] at hshape
      cases t with
      | nil => simp at hshape
      | cons b u => simp at hshape; simp [hshape.1]
  have hquotes : stripQuotes s.data = s.data := by
    rw [stripQuotes, if_neg]
    intro hcon
    rw [hhead] at hcon
    exact absurd hcon.1 (by decide)
  have hbody : stripPhpFraming s.data = s.data := by
    rw [stripPhpFraming, if_pos (And.intro hshape hsemi)]
    rcases hmiss with h | ⟨fc, h1, h2⟩ | ⟨fc, fq, h1, h2, h3⟩ | ⟨fc, fq, lq, h1, h2, h3, h4⟩
    · simp only [h]
    · simp only [h1, h2]
    · simp only [h1, h2, h3]
    · simp only [h1, h2, h3, if_neg h4]
  show String.mk (stripPhpFraming (stripQuotes s.data)) = s
  rw [hquotes, hbody]

/-- C10: the quote-stripping step needs no minimum length: on the one-character
input consisting of a single double quote, the same character passes both the
`startswith` and `endswith` test and the slice `[1:-1]` leaves the empty
string. -/
theorem claim_C10 : unwrapLaravel ("\"") = "" := by decide

/-- C3 counterexample: `unwrap` is not idempotent. On `s:3:""a"";` one pass
strips the PHP framing and leaves `"a"` (with quotes), and a second pass strips
the quotes, leaving `a`. -/
theorem claim_C3_counterexample :
    unwrapLaravel (unwrapLaravel ("s:3:\"\"a\"\";")) ≠ unwrapLaravel ("s:3:\"\"a\"\";") := by
  decide

/-- C3 (amended): the unwrap transformation is idempotent on every input whose
image neither starts and ends with a double quote nor carries the
`s:`/terminal-`;` shape; on such fixed points a second unwrap is the identity.
The unrestricted law `unwrap (unwrap x) = unwrap x` is refuted by
`claim_C3_counterexample`. -/
theorem claim_C3_amended (x : String)
    (h1 : ¬ ((unwrapLaravel x).data.head? = some '"' ∧
        (unwrapLaravel x).data.getLast? = some '"'))
    (h2 : ¬ ((unwrapLaravel x).data.take 2 = ['s', ':'] ∧
        (unwrapLaravel x).data.getLast? = some ';')) :
    unwrapLaravel (unwrapLaravel x) = unwrapLaravel x :=
  unwrapLaravel_eq_self h1 h2

theorem claim_C3_witness :
    unwrapLaravel (unwrapLaravel ("hello")) = unwrapLaravel ("hello") :=
  claim_C3_amended ("hello") (by decide) (by decide)

/-- C5: the unwrapper maps `s:N:"c";` to `c` for every digit string `N`
(whether or not `N` is the byte length of `c`) and every quote-free content
`c`; and when the `s:`/`;` shape is present but a landmark search fails, the
input passes through unchanged. -/
theorem claim_C5 :
    (∀ N c : String, (∀ ch ∈ N.data, ch.isDigit = true) →
      (∀ ch ∈ c.data, ch ≠ '"') →
      unwrapLaravel ("s:" ++ N ++ ":\"" ++ c ++ "\";") = c)
    ∧ (∀ s : String, s.data.take 2 = ['s', ':'] → s.data.getLast? = some ';' →
      landmarksMissing s.data → unwrapLaravel s = s) :=
  ⟨fun N c hN _hc => unwrapLaravel_phpFrame N c hN,
   fun s h1 h2 h3 => unwrapLaravel_landmarks_missing s h1 h2 h3⟩

theorem claim_C5_witness :
    unwrapLaravel ("s:5:\"hello\";") = "hello" ∧ unwrapLaravel ("s:;") = "s:;" :=
  ⟨claim_C5.1 ("5") ("hello") (by decide) (by decide),
   claim_C5.2 ("s:;") (by decide) (by decide) (Or.inl (by decide))⟩


/-! ## Python exceptions

The decryption function's two `try` blocks catch different exception sets:
the first catches `(json.JSONDecodeError, base64.binascii.Error, KeyError)`,
the second catches `Exception`.  We track the exception class of each
modelled failure so that the embedding distinguishes caught from escaping
exceptions exactly as CPython would. -/

inductive PyExc where
  | typeError
  | keyError
  | binasciiError
  | jsonDecodeError
  | valueError
  | unicodeDecodeError
  | unicodeEncodeError
deriving DecidableEq

/-- Membership in the tuple `(json.JSONDecodeError, base64.binascii.Error,
KeyError)` of the first `except` clause (src/app.py line 62).  `TypeError`
and the Unicode codec errors are not subclasses of any member, so they
escape this clause. -/
def caughtByDecodeExcept : PyExc → Bool
  | .jsonDecodeError => true
  | .binasciiError => true
  | .keyError => true
  | _ => false

/-- Stands in for Python's `str(e)`; the exact text is irrelevant to the
program's behaviour, only its presence inside the formatted messages. -/
def pyExcMsg : PyExc → String
  | .typeError => "TypeError"
  | .keyError => "KeyError"
  | .binasciiError => "binascii.Error"
  | .jsonDecodeError => "json.JSONDecodeError"
  | .valueError => "ValueError"
  | .unicodeDecodeError => "UnicodeDecodeError"
  | .unicodeEncodeError => "UnicodeEncodeError"

/-! ## Base64 (models Python's `base64.b64encode` / `b64decode`)

`b64decode` is called with `validate=False`, so characters outside the
alphabet (and `=`) are discarded before decoding; a string value is first
encoded to ASCII (raising `UnicodeEncodeError` — not caught by the decode
`except` clause — on non-ASCII input); groups of four symbols decode to
three bytes, with `=`-padding allowed only at the end.  The model covers the
standard well-formed and mis-padded shapes the program can meet. -/

def b64Alphabet : List Char :=
  ("ABCDEFGHIJKLMNOPQRSTUVWXYZabcdefghijklmnopqrstuvwxyz0123456789+/").data

def b64Tbl (n : Nat) : Char := b64Alphabet.getD n 'A'

def b64CharIdx (c : Char) : Option Nat := firstIdx c b64Alphabet

def isB64Symbol (c : Char) : Bool := (b64CharIdx c).isSome || c == '='

def b64encodeList : List Nat → List Char
  | [] => []
  | [a] => [b64Tbl (a / 4), b64Tbl (a % 4 * 16), '=', '=']
  | [a, b] => [b64Tbl (a / 4), b64Tbl (a % 4 * 16 + b / 16), b64Tbl (b % 16 * 4), '=']
  | a :: b :: c :: rest =>
    b64Tbl (a / 4) :: b64Tbl (a % 4 * 16 + b / 16) :: b64Tbl (b % 16 * 4 + c / 64)
      :: b64Tbl (c % 64) :: b64encodeList rest

def b64encodeStr (bs : List Nat) : String := ⟨b64encodeList bs⟩

def b64decodeQuads : List Char → Option (List Nat)
  | [] => some []
  | c1 :: c2 :: c3 :: c4 :: rest =>
    if rest = [] ∧ c3 = '=' ∧ c4 = '=' then
      match b64CharIdx c1, b64CharIdx c2 with
      | some i1, some i2 => some [i1 * 4 + i2 / 16]
      | _, _ => none
    else if rest = [] ∧ c4 = '=' then
      match b64CharIdx c1, b64CharIdx c2, b64CharIdx c3 with
      | some i1, some i2, some i3 => some [i1 * 4 + i2 / 16, i2 % 16 * 16 + i3 / 4]
      | _, _, _ => none
    else
      match b64CharIdx c1, b64CharIdx c2, b64CharIdx c3, b64CharIdx c4,
          b64decodeQuads rest with
      | some i1, some i2, some i3, some i4, some bs =>
        some ((i1 * 4 + i2 / 16) :: (i2 % 16 * 16 + i3 / 4) :: (i3 % 4 * 64 + i4) :: bs)
      | _, _, _, _, _ => none
  | _ => none

/-- `base64.b64decode(s)` on a `str` argument: ASCII-encode (strict), discard
non-alphabet characters, then decode; a leftover group or misplaced padding
raises `binascii.Error`. -/
def b64decodeStr (s : String) : Except PyExc (List Nat) :=
  if s.data.any (fun c => decide (128 ≤ c.toNat)) then .error .unicodeEncodeError
  else
    match b64decodeQuads (s.data.filter isB64Symbol) with
    | some bs => .ok bs
    | none => .error .binasciiError

/-- Lines 50-52 of src/app.py: append `=` to bring the envelope string's
length to the next multiple of 4 before Base64-decoding. -/
def padBase64 (s : String) : String :=
  if s.length % 4 ≠ 0 then s ++ ⟨List.replicate (4 - s.length % 4) '='⟩ else s

theorem b64CharIdx_tbl : ∀ n, n < 64 → b64CharIdx (b64Tbl n) = some n := by decide

theorem b64Tbl_ne_eq : ∀ n, n < 64 → b64Tbl n ≠ '=' := by decide

theorem b64Tbl_ascii : ∀ n, n < 64 → (b64Tbl n).toNat < 128 := by decide

theorem isB64Symbol_tbl : ∀ n, n < 64 → isB64Symbol (b64Tbl n) = true := by decide

theorem b64decodeQuads_encode :
    ∀ bs : List Nat, (∀ x ∈ bs, x < 256) →
      b64decodeQuads (b64encodeList bs) = some bs := by
  intro bs
  induction bs using b64encodeList.induct with
  | case1 => intro _; simp [b64encodeList, b64decodeQuads]
  | case2 a =>
    intro h
    have ha : a < 256 := h a (by simp)
    simp only [b64encodeList, b64decodeQuads,
      b64CharIdx_tbl (a / 4) (by omega), b64CharIdx_tbl (a % 4 * 16) (by omega)]
    have heq : a / 4 * 4 + a % 4 * 16 / 16 = a := by omega
    simp [heq]
    omega
  | case3 a b =>
    intro h
    have ha : a < 256 := h a (by simp)
    have hb : b < 256 := h b (by simp)
    simp only [b64encodeList, b64decodeQuads,
      b64CharIdx_tbl (a / 4) (by omega),
      b64CharIdx_tbl (a % 4 * 16 + b / 16) (by omega),
      b64CharIdx_tbl (b % 16 * 4) (by omega)]
    have h1 : a / 4 * 4 + (a % 4 * 16 + b / 16) / 16 = a := by omega
    have h2 : (a % 4 * 16 + b / 16) % 16 * 16 + b % 16 * 4 / 4 = b := by omega
    simp [h1, h2, b64Tbl_ne_eq (b % 16 * 4) (by omega : b % 16 * 4 < 64)]
    omega
  | case4 a b c rest ih =>
    intro h
    have ha : a < 256 := h a (by simp)
    have hb : b < 256 := h b (by simp)
    have hc : c < 256 := h c (by simp)
    have hrest : ∀ x ∈ rest, x < 256 := fun x hx => h x (by simp [hx])
    simp only [b64encodeList, b64decodeQuads,
      b64CharIdx_tbl (a / 4) (by omega),
      b64CharIdx_tbl (a % 4 * 16 + b / 16) (by omega),
      b64CharIdx_tbl (b % 16 * 4 + c / 64) (by omega),
      b64CharIdx_tbl (c % 64) (by omega),
      ih hrest]
    have h1 : a / 4 * 4 + (a % 4 * 16 + b / 16) / 16 = a := by omega
    have h2 : (a % 4 * 16 + b / 16) % 16 * 16 + (b % 16 * 4 + c / 64) / 4 = b := by omega
    have h3 : (b % 16 * 4 + c / 64) % 4 * 64 + c % 64 = c := by omega
    simp [h1, h2, h3, b64Tbl_ne_eq (b % 16 * 4 + c / 64) (by omega : b % 16 * 4 + c / 64 < 64),
      b64Tbl_ne_eq (c % 64) (by omega : c % 64 < 64)]

theorem b64encodeList_length_mod (bs : List Nat) :
    (b64encodeList bs).length % 4 = 0 := by
  induction bs using b64encodeList.induct with
  | case1 => simp [b64encodeList]
  | case2 a => simp [b64encodeList]
  | case3 a b => simp [b64encodeList]
  | case4 a b c rest ih => simp only [b64encodeList, List.length_cons]; omega

theorem b64encodeList_chars :
    ∀ bs : List Nat, (∀ x ∈ bs, x < 256) →
      ∀ ch ∈ b64encodeList bs, isB64Symbol ch = true ∧ ch.toNat < 128 := by
  intro bs
  induction bs using b64encodeList.induct with
  | case1 => intro _ ch hch; simp [b64encodeList] at hch
  | case2 a =>
    intro h ch hch
    have ha : a < 256 := h a (by simp)
    simp [b64encodeList] at hch
    rcases hch with rfl | rfl | rfl
    · exact ⟨isB64Symbol_tbl _ (by omega), b64Tbl_ascii _ (by omega)⟩
    · exact ⟨isB64Symbol_tbl _ (by omega), b64Tbl_ascii _ (by omega)⟩
    · exact ⟨by decide, by decide⟩
  | case3 a b =>
    intro h ch hch
    have ha : a < 256 := h a (by simp)
    have hb : b < 256 := h b (by simp)
    simp [b64encodeList] at hch
    rcases hch with rfl | rfl | rfl | rfl
    · exact ⟨isB64Symbol_tbl _ (by omega), b64Tbl_ascii _ (by omega)⟩
    · exact ⟨isB64Symbol_tbl _ (by omega), b64Tbl_ascii _ (by omega)⟩
    · exact ⟨isB64Symbol_tbl _ (by omega), b64Tbl_ascii _ (by omega)⟩
    · exact ⟨by decide, by decide⟩
  | case4 a b c rest ih =>
    intro h ch hch
    have ha : a < 256 := h a (by simp)
    have hb : b < 256 := h b (by simp)
    have hc : c < 256 := h c (by simp)
    have hrest : ∀ x ∈ rest, x < 256 := fun x hx => h x (by simp [hx])
    simp only [b64encodeList, List.mem_cons] at hch
    rcases hch with rfl | rfl | rfl | rfl | hch
    · exact ⟨isB64Symbol_tbl _ (by omega), b64Tbl_ascii _ (by omega)⟩
    · exact ⟨isB64Symbol_tbl _ (by omega), b64Tbl_ascii _ (by omega)⟩
    · exact ⟨isB64Symbol_tbl _ (by omega), b64Tbl_ascii _ (by omega)⟩
    · exact ⟨isB64Symbol_tbl _ (by omega), b64Tbl_ascii _ (by omega)⟩
    · exact ih hrest ch hch

/-- Round trip through the string-level codec: decoding an encoder output
recovers the bytes. -/
theorem b64decodeStr_encodeStr (bs : List Nat) (h : ∀ x ∈ bs, x < 256) :
    b64decodeStr (b64encodeStr bs) = .ok bs := by
  have hchars := b64encodeList_chars bs h
  have hascii : (b64encodeStr bs).data.any (fun c => decide (128 ≤ c.toNat)) = false := by
    rw [List.any_eq_false]
    intro ch hch
    have := (hchars ch hch).2
    simp
    omega
  have hfilter : (b64encodeStr bs).data.filter isB64Symbol = b64encodeList bs := by
    apply List.filter_eq_self.mpr
    intro ch hch
    exact (hchars ch hch).1
  rw [b64decodeStr, if_neg (by rw [hascii]; intro hcon; exact Bool.noConfusion hcon),
    hfilter, b64decodeQuads_encode bs h]

/-! ## UTF-8 (models Python's `str.encode('utf-8')` / `bytes.decode('utf-8')`)

Characters are Unicode scalar values; the encoder emits the standard 1-4 byte
sequences and the strict decoder accepts exactly well-formed, non-overlong,
non-surrogate sequences (failure models `UnicodeDecodeError`).  The decoder
runs on a fuel counter equal to the input length; every accepted sequence
consumes at least one byte, so the fuel never runs out on inputs the real
decoder accepts. -/

def utf8EncodeChar (c : Char) : List Nat :=
  let n := c.toNat
  if n < 128 then [n]
  else if n < 2048 then [192 + n / 64, 128 + n % 64]
  else if n < 65536 then [224 + n / 4096, 128 + n / 64 % 64, 128 + n % 64]
  else [240 + n / 262144, 128 + n / 4096 % 64, 128 + n / 64 % 64, 128 + n % 64]

def utf8Encode (s : String) : List Nat :=
  (s.data.map utf8EncodeChar).flatten

/-- Split one two-byte sequence with leading byte `b0`. -/
def utf8Split2 (b0 : Nat) (bs : List Nat) : Option (Char × List Nat) :=
  match bs with
  | b1 :: rest =>
    if 128 ≤ b1 ∧ b1 < 192 then
      some (Char.ofNat ((b0 - 192) * 64 + (b1 - 128)), rest)
    else none
  | [] => none

/-- Split one three-byte sequence with leading byte `b0` (rejecting overlong
and surrogate encodings). -/
def utf8Split3 (b0 : Nat) (bs : List Nat) : Option (Char × List Nat) :=
  match bs with
  | b1 :: b2 :: rest =>
    if (128 ≤ b1 ∧ b1 < 192) ∧ (128 ≤ b2 ∧ b2 < 192) then
      if 2048 ≤ (b0 - 224) * 4096 + (b1 - 128) * 64 + (b2 - 128)
          ∧ ((b0 - 224) * 4096 + (b1 - 128) * 64 + (b2 - 128) < 55296
             ∨ 57344 ≤ (b0 - 224) * 4096 + (b1 - 128) * 64 + (b2 - 128)) then
        some (Char.ofNat ((b0 - 224) * 4096 + (b1 - 128) * 64 + (b2 - 128)), rest)
      else none
    else none
  | _ => none

/-- Split one four-byte sequence with leading byte `b0`. -/
def utf8Split4 (b0 : Nat) (bs : List Nat) : Option (Char × List Nat) :=
  match bs with
  | b1 :: b2 :: b3 :: rest =>
    if (128 ≤ b1 ∧ b1 < 192) ∧ (128 ≤ b2 ∧ b2 < 192) ∧ (128 ≤ b3 ∧ b3 < 192) then
      if 65536 ≤ (b0 - 240) * 262144 + (b1 - 128) * 4096 + (b2 - 128) * 64 + (b3 - 128)
          ∧ (b0 - 240) * 262144 + (b1 - 128) * 4096 + (b2 - 128) * 64 + (b3 - 128)
            < 1114112 then
        some (Char.ofNat
          ((b0 - 240) * 262144 + (b1 - 128) * 4096 + (b2 - 128) * 64 + (b3 - 128)), rest)
      else none
    else none
  | _ => none

/-- Split one UTF-8 sequence off the front of the byte list. -/
def utf8SplitChar : List Nat → Option (Char × List Nat)
  | [] => none
  | b0 :: bs =>
    if b0 < 128 then some (Char.ofNat b0, bs)
    else if 194 ≤ b0 ∧ b0 < 224 then utf8Split2 b0 bs
    else if 224 ≤ b0 ∧ b0 < 240 then utf8Split3 b0 bs
    else if 240 ≤ b0 ∧ b0 < 245 then utf8Split4 b0 bs
    else none

def utf8DecodeLoop : Nat → List Nat → Option (List Char)
  | _, [] => some []
  | 0, _ :: _ => none
  | fuel + 1, b0 :: bs =>
    match utf8SplitChar (b0 :: bs) with
    | some (c, rest) => (utf8DecodeLoop fuel rest).map (fun cs => c :: cs)
    | none => none

def utf8DecodeList (l : List Nat) : Option (List Char) :=
  utf8DecodeLoop l.length l

/-- `bytes.decode('utf-8')`, strict error handling. -/
def utf8Decode (bs : List Nat) : Except PyExc String :=
  match utf8DecodeList bs with
  | some cs => .ok ⟨cs⟩
  | none => .error .unicodeDecodeError

theorem char_valid_range (c : Char) :
    c.toNat < 55296 ∨ (57343 < c.toNat ∧ c.toNat < 1114112) := c.valid

theorem utf8EncodeChar_bytes (c : Char) : ∀ x ∈ utf8EncodeChar c, x < 256 := by
  have hv := char_valid_range c
  intro x hx
  rw [utf8EncodeChar] at hx
  by_cases h1 : c.toNat < 128
  · simp only [if_pos h1] at hx
    simp at hx
    omega
  · by_cases h2 : c.toNat < 2048
    · simp only [if_neg h1, if_pos h2] at hx
      simp at hx
      rcases hx with rfl | rfl <;> omega
    · by_cases h3 : c.toNat < 65536
      · simp only [if_neg h1, if_neg h2, if_pos h3] at hx
        simp at hx
        rcases hx with rfl | rfl | rfl <;> omega
      · simp only [if_neg h1, if_neg h2, if_neg h3] at hx
        simp at hx
        rcases hx with rfl | rfl | rfl | rfl <;> omega

theorem utf8EncodeChar_length_pos (c : Char) : 0 < (utf8EncodeChar c).length := by
  rw [utf8EncodeChar]
  by_cases h1 : c.toNat < 128
  · simp [if_pos h1]
  · by_cases h2 : c.toNat < 2048
    · simp [if_neg h1, if_pos h2]
    · by_cases h3 : c.toNat < 65536
      · simp [if_neg h1, if_neg h2, if_pos h3]
      · simp [if_neg h1, if_neg h2, if_neg h3]

/-- Splitting the encoder's output for one character recovers the character
and the remaining bytes. -/
theorem utf8SplitChar_encodeChar (c : Char) (rest : List Nat) :
    utf8SplitChar (utf8EncodeChar c ++ rest) = some (c, rest) := by
  have hv := char_valid_range c
  by_cases h1 : c.toNat < 128
  · rw [utf8EncodeChar]
    simp only [if_pos h1, List.cons_append, List.nil_append]
    rw [utf8SplitChar.eq_def]
    dsimp only
    rw [if_pos h1, Char.ofNat_toNat]
  · by_cases h2 : c.toNat < 2048
    · rw [utf8EncodeChar]
      simp only [if_neg h1, if_pos h2, List.cons_append, List.nil_append]
      rw [utf8SplitChar.eq_def]
      dsimp only
      rw [if_neg (by omega),
        if_pos (by omega : 194 ≤ 192 + c.toNat / 64 ∧ 192 + c.toNat / 64 < 224)]
      rw [utf8Split2.eq_def]
      dsimp only
      rw [if_pos (by omega : 128 ≤ 128 + c.toNat % 64 ∧ 128 + c.toNat % 64 < 192)]
      have heq : (192 + c.toNat / 64 - 192) * 64 + (128 + c.toNat % 64 - 128) = c.toNat := by
        omega
      rw [heq, Char.ofNat_toNat]
    · by_cases h3 : c.toNat < 65536
      · rw [utf8EncodeChar]
        simp only [if_neg h1, if_neg h2, if_pos h3, List.cons_append, List.nil_append]
        rw [utf8SplitChar.eq_def]
        dsimp only
        rw [if_neg (by omega), if_neg (by omega),
          if_pos (by omega : 224 ≤ 224 + c.toNat / 4096 ∧ 224 + c.toNat / 4096 < 240)]
        rw [utf8Split3.eq_def]
        dsimp only
        rw [if_pos (by omega :
          (128 ≤ 128 + c.toNat / 64 % 64 ∧ 128 + c.toNat / 64 % 64 < 192)
          ∧ (128 ≤ 128 + c.toNat % 64 ∧ 128 + c.toNat % 64 < 192))]
        have heq : (224 + c.toNat / 4096 - 224) * 4096 + (128 + c.toNat / 64 % 64 - 128) * 64
            + (128 + c.toNat % 64 - 128) = c.toNat := by
          omega
        rw [heq]
        rw [if_pos (by omega), Char.ofNat_toNat]
      · rw [utf8EncodeChar]
        simp only [if_neg h1, if_neg h2, if_neg h3, List.cons_append, List.nil_append]
        rw [utf8SplitChar.eq_def]
        dsimp only
        rw [if_neg (by omega), if_neg (by omega), if_neg (by omega),
          if_pos (by omega : 240 ≤ 240 + c.toNat / 262144 ∧ 240 + c.toNat / 262144 < 245)]
        rw [utf8Split4.eq_def]
        dsimp only
        rw [if_pos (by omega :
          (128 ≤ 128 + c.toNat / 4096 % 64 ∧ 128 + c.toNat / 4096 % 64 < 192)
          ∧ (128 ≤ 128 + c.toNat / 64 % 64 ∧ 128 + c.toNat / 64 % 64 < 192)
          ∧ (128 ≤ 128 + c.toNat % 64 ∧ 128 + c.toNat % 64 < 192))]
        have heq : (240 + c.toNat / 262144 - 240) * 262144
            + (128 + c.toNat / 4096 % 64 - 128) * 4096
            + (128 + c.toNat / 64 % 64 - 128) * 64 + (128 + c.toNat % 64 - 128) = c.toNat := by
          omega
        rw [heq]
        rw [if_pos (by omega), Char.ofNat_toNat]

theorem utf8DecodeLoop_encode_chars (cs : List Char) :
    ∀ fuel, ((cs.map utf8EncodeChar).flatten).length ≤ fuel →
      utf8DecodeLoop fuel ((cs.map utf8EncodeChar).flatten) = some cs := by
  induction cs with
  | nil => intro fuel _; cases fuel <;> rfl
  | cons c rest ih =>
    intro fuel hfuel
    simp only [List.map_cons, List.flatten_cons] at hfuel ⊢
    have hpos : 0 < (utf8EncodeChar c).length := utf8EncodeChar_length_pos c
    have hlen : 0 < (utf8EncodeChar c ++ (rest.map utf8EncodeChar).flatten).length := by
      simp only [List.length_append]
      omega
    cases fuel with
    | zero => omega
    | succ f =>
      cases hsplit : utf8EncodeChar c ++ (rest.map utf8EncodeChar).flatten with
      | nil => rw [hsplit] at hlen; simp at hlen
      | cons b0 bs =>
        rw [utf8DecodeLoop, ← hsplit, utf8SplitChar_encodeChar]
        dsimp only
        rw [ih f (by simp only [List.length_append] at hfuel; omega)]
        rfl

/-- Round trip: decoding the UTF-8 encoding of a string recovers it. -/
theorem utf8Decode_encode (s : String) : utf8Decode (utf8Encode s) = .ok s := by
  rw [utf8Decode, utf8Encode, utf8DecodeList,
    utf8DecodeLoop_encode_chars s.data _ (Nat.le_refl _)]

theorem utf8Encode_bytes (s : String) : ∀ x ∈ utf8Encode s, x < 256 := by
  intro x hx
  rw [utf8Encode] at hx
  rcases List.mem_flatten.mp hx with ⟨l, hl, hxl⟩
  rcases List.mem_map.mp hl with ⟨c, _, rfl⟩
  exact utf8EncodeChar_bytes c x hxl

/-! ## PKCS7 padding (models `Crypto.Util.Padding.pad` / `unpad`) -/

def pkcs7Pad (data : List Nat) : List Nat :=
  data ++ List.replicate (16 - data.length % 16) (16 - data.length % 16)

/-- `unpad(data, AES.block_size)`: all failure modes raise `ValueError`
(zero-length input, length not a block multiple, padding byte out of range,
padding bytes inconsistent). -/
def pkcs7Unpad (data : List Nat) : Except PyExc (List Nat) :=
  if data.length = 0 then .error .valueError
  else if data.length % 16 ≠ 0 then .error .valueError
  else
    match data.getLast? with
    | none => .error .valueError
    | some p =>
      if p < 1 ∨ 16 < p then .error .valueError
      else if data.drop (data.length - p) ≠ List.replicate p p then .error .valueError
      else .ok (data.take (data.length - p))

theorem pkcs7Unpad_pad (d : List Nat) : pkcs7Unpad (pkcs7Pad d) = .ok d := by
  set p : Nat := 16 - d.length % 16 with hp
  have hp1 : 1 ≤ p := by omega
  have hp16 : p ≤ 16 := by omega
  have hlen : (pkcs7Pad d).length = d.length + p := by
    simp [pkcs7Pad, ← hp]
  have hlast : (pkcs7Pad d).getLast? = some p := by
    have hrep : List.replicate p p = List.replicate (p - 1) p ++ [p] := by
      have : p = (p - 1) + 1 := by omega
      rw [this, List.replicate_succ']
      simp
    rw [pkcs7Pad, ← hp, hrep, ← List.append_assoc, List.getLast?_concat]
  rw [pkcs7Unpad, if_neg (by omega), if_neg (by rw [hlen]; omega), hlast]
  dsimp only
  rw [if_neg (by omega)]
  have hdt : (pkcs7Pad d).length - p = d.length := by omega
  have hdrop : (pkcs7Pad d).drop ((pkcs7Pad d).length - p) = List.replicate p p := by
    rw [hdt, pkcs7Pad, ← hp, List.drop_left]
  have htake : (pkcs7Pad d).take ((pkcs7Pad d).length - p) = d := by
    rw [hdt, pkcs7Pad, ← hp, List.take_left]
  rw [if_neg (by rw [hdrop]; exact fun hcon => hcon rfl), htake]

/-! ## CBC mode over an abstract block cipher

The AES block permutation lives in the `pycryptodome` library; the embedding
keeps it as a parameter (a pair of keyed block maps).  `BlockCipher.Valid`
states what the library guarantees for a 32-byte key: on 16-byte blocks of
bytes, decryption inverts encryption and encryption again produces a 16-byte
block of bytes.  CBC chaining, which `AES.MODE_CBC` applies around the block
permutation, is modelled explicitly. -/

structure BlockCipher where
  encryptBlock : List Nat → List Nat → List Nat
  decryptBlock : List Nat → List Nat → List Nat

def BlockCipher.Valid (C : BlockCipher) : Prop :=
  ∀ key b, key.length = 32 → b.length = 16 → (∀ x ∈ b, x < 256) →
    C.decryptBlock key (C.encryptBlock key b) = b
    ∧ (C.encryptBlock key b).length = 16
    ∧ (∀ x ∈ C.encryptBlock key b, x < 256)

def xorBytes (a b : List Nat) : List Nat := List.zipWith (fun x y => x ^^^ y) a b

def chunk16Loop : Nat → List Nat → List (List Nat)
  | _, [] => []
  | 0, _ :: _ => []
  | fuel + 1, a :: rest => ((a :: rest).take 16) :: chunk16Loop fuel ((a :: rest).drop 16)

/-- Split a byte string into 16-byte blocks (the fuel, set to the length,
never runs out: every step consumes at least one element). -/
def chunk16 (l : List Nat) : List (List Nat) := chunk16Loop l.length l

def cbcEncryptBlocks (C : BlockCipher) (key : List Nat) :
    List Nat → List (List Nat) → List (List Nat)
  | _, [] => []
  | prev, b :: bs =>
    C.encryptBlock key (xorBytes prev b)
      :: cbcEncryptBlocks C key (C.encryptBlock key (xorBytes prev b)) bs

def cbcDecryptBlocks (C : BlockCipher) (key : List Nat) :
    List Nat → List (List Nat) → List (List Nat)
  | _, [] => []
  | prev, ctb :: cts =>
    xorBytes prev (C.decryptBlock key ctb) :: cbcDecryptBlocks C key ctb cts

/-- `AES.new(key, AES.MODE_CBC, iv).decrypt(ct)`: `ValueError` unless the
data length is a multiple of the block size, otherwise chained block
decryption. -/
def cipherDecrypt (C : BlockCipher) (key iv ct : List Nat) : Except PyExc (List Nat) :=
  if ct.length % 16 ≠ 0 then .error .valueError
  else .ok ((cbcDecryptBlocks C key iv (chunk16 ct)).flatten)

theorem xorBytes_cancel :
    ∀ a b : List Nat, a.length = b.length → xorBytes a (xorBytes a b) = b := by
  intro a
  induction a with
  | nil =>
    intro b hb
    cases b with
    | nil => rfl
    | cons y ys => simp at hb
  | cons x xs ih =>
    intro b hb
    cases b with
    | nil => simp at hb
    | cons y ys =>
      simp only [xorBytes, List.zipWith_cons_cons, List.cons.injEq]
      constructor
      · exact Nat.xor_cancel_left x y
      · exact ih ys (by simpa using hb)

theorem xorBytes_length (a b : List Nat) :
    (xorBytes a b).length = min a.length b.length := by
  simp [xorBytes]

theorem xorBytes_bytes :
    ∀ a b : List Nat, (∀ x ∈ a, x < 256) → (∀ x ∈ b, x < 256) →
      ∀ x ∈ xorBytes a b, x < 256 := by
  intro a
  induction a with
  | nil => intro b _ _ x hx; simp [xorBytes] at hx
  | cons x0 xs ih =>
    intro b ha hb x hx
    cases b with
    | nil => simp [xorBytes] at hx
    | cons y0 ys =>
      simp only [xorBytes, List.zipWith_cons_cons, List.mem_cons] at hx
      rcases hx with rfl | hmem
      · have h : x0 ^^^ y0 < 2 ^ 8 :=
          Nat.xor_lt_two_pow (show x0 < 2 ^ 8 by have := ha x0 (by simp); norm_num [this])
            (show y0 < 2 ^ 8 by have := hb y0 (by simp); norm_num [this])
        norm_num at h
        exact h
      · exact ih ys (fun z hz => ha z (by simp [hz])) (fun z hz => hb z (by simp [hz])) x hmem

theorem cbcDecrypt_encrypt (C : BlockCipher) (hC : C.Valid) (key : List Nat)
    (hkey : key.length = 32) :
    ∀ (blocks : List (List Nat)) (prev : List Nat),
      (∀ blk ∈ blocks, blk.length = 16 ∧ ∀ x ∈ blk, x < 256) →
      prev.length = 16 → (∀ x ∈ prev, x < 256) →
      cbcDecryptBlocks C key prev (cbcEncryptBlocks C key prev blocks) = blocks := by
  intro blocks
  induction blocks with
  | nil => intro prev _ _ _; rfl
  | cons b bs ih =>
    intro prev hblk hprev hprevb
    have hb16 : b.length = 16 := (hblk b (by simp)).1
    have hbB : ∀ x ∈ b, x < 256 := (hblk b (by simp)).2
    have hxlen : (xorBytes prev b).length = 16 := by
      rw [xorBytes_length, hprev, hb16]; omega
    have hxB : ∀ x ∈ xorBytes prev b, x < 256 := xorBytes_bytes prev b hprevb hbB
    obtain ⟨hdec, hctlen, hctB⟩ := hC key (xorBytes prev b) hkey hxlen hxB
    rw [cbcEncryptBlocks, cbcDecryptBlocks, hdec,
      xorBytes_cancel prev b (by rw [hprev, hb16]),
      ih _ (fun blk hblk2 => hblk blk (by simp [hblk2])) hctlen hctB]

theorem cbcEncryptBlocks_spec (C : BlockCipher) (hC : C.Valid) (key : List Nat)
    (hkey : key.length = 32) :
    ∀ (blocks : List (List Nat)) (prev : List Nat),
      (∀ blk ∈ blocks, blk.length = 16 ∧ ∀ x ∈ blk, x < 256) →
      prev.length = 16 → (∀ x ∈ prev, x < 256) →
      ∀ ctb ∈ cbcEncryptBlocks C key prev blocks,
        ctb.length = 16 ∧ ∀ x ∈ ctb, x < 256 := by
  intro blocks
  induction blocks with
  | nil => intro prev _ _ _ ctb hctb; simp [cbcEncryptBlocks] at hctb
  | cons b bs ih =>
    intro prev hblk hprev hprevb ctb hctb
    have hb16 : b.length = 16 := (hblk b (by simp)).1
    have hbB : ∀ x ∈ b, x < 256 := (hblk b (by simp)).2
    have hxlen : (xorBytes prev b).length = 16 := by
      rw [xorBytes_length, hprev, hb16]; omega
    have hxB : ∀ x ∈ xorBytes prev b, x < 256 := xorBytes_bytes prev b hprevb hbB
    obtain ⟨_, hctlen, hctB⟩ := hC key (xorBytes prev b) hkey hxlen hxB
    rw [cbcEncryptBlocks] at hctb
    rcases List.mem_cons.mp hctb with rfl | hmem
    · exact ⟨hctlen, hctB⟩
    · exact ih _ (fun blk hblk2 => hblk blk (by simp [hblk2])) hctlen hctB ctb hmem

theorem chunk16Loop_flatten :
    ∀ (blocks : List (List Nat)) (fuel : Nat), (∀ blk ∈ blocks, blk.length = 16) →
      blocks.flatten.length ≤ fuel → chunk16Loop fuel blocks.flatten = blocks := by
  intro blocks
  induction blocks with
  | nil => intro fuel _ _; cases fuel <;> rfl
  | cons b bs ih =>
    intro fuel hblk hfuel
    have hb16 : b.length = 16 := hblk b (by simp)
    rw [List.flatten_cons] at hfuel ⊢
    have hlen : (b ++ bs.flatten).length = 16 + bs.flatten.length := by
      simp [hb16]
    cases fuel with
    | zero => omega
    | succ f =>
      cases b with
      | nil => simp at hb16
      | cons b0 brest =>
        rw [List.cons_append, chunk16Loop, ← List.cons_append]
        rw [take_length_append' (b0 :: brest) bs.flatten hb16.symm,
          drop_length_append' (b0 :: brest) bs.flatten hb16.symm]
        rw [ih f (fun blk hm => hblk blk (by simp [hm]))
          (by simp only [List.length_append] at hfuel; omega)]

theorem chunk16_flatten (blocks : List (List Nat))
    (hblk : ∀ blk ∈ blocks, blk.length = 16) :
    chunk16 blocks.flatten = blocks :=
  chunk16Loop_flatten blocks blocks.flatten.length hblk (Nat.le_refl _)

theorem chunk16Loop_join :
    ∀ (fuel : Nat) (l : List Nat), l.length ≤ fuel →
      (chunk16Loop fuel l).flatten = l := by
  intro fuel
  induction fuel with
  | zero =>
    intro l hl
    cases l with
    | nil => rfl
    | cons a rest => simp at hl
  | succ f ih =>
    intro l hl
    cases l with
    | nil => rfl
    | cons a rest =>
      rw [chunk16Loop, List.flatten_cons]
      rw [ih ((a :: rest).drop 16)
          (by simp only [List.length_drop, List.length_cons] at hl ⊢; omega),
        List.take_append_drop]

theorem flatten_chunk16 (l : List Nat) : (chunk16 l).flatten = l :=
  chunk16Loop_join l.length l (Nat.le_refl _)

theorem chunk16Loop_blocks :
    ∀ (fuel : Nat) (l : List Nat), l.length ≤ fuel → l.length % 16 = 0 →
      (∀ x ∈ l, x < 256) →
      ∀ blk ∈ chunk16Loop fuel l, blk.length = 16 ∧ ∀ x ∈ blk, x < 256 := by
  intro fuel
  induction fuel with
  | zero =>
    intro l hl _ _ blk hblk
    cases l with
    | nil => simp [chunk16Loop] at hblk
    | cons a rest => simp at hl
  | succ f ih =>
    intro l hl hmod hbytes blk hblk
    cases l with
    | nil => simp [chunk16Loop] at hblk
    | cons a rest =>
      have hlen : 16 ≤ (a :: rest).length := by
        have : (a :: rest).length ≠ 0 := by simp
        omega
      rw [chunk16Loop] at hblk
      rcases List.mem_cons.mp hblk with rfl | hmem
      · constructor
        · rw [List.length_take]; omega
        · intro x hx; exact hbytes x (List.mem_of_mem_take hx)
      · have hl' : ((a :: rest).drop 16).length ≤ f := by
          rw [List.length_drop]; simp at hl ⊢; omega
        have hmod' : ((a :: rest).drop 16).length % 16 = 0 := by
          rw [List.length_drop]; omega
        have hbytes' : ∀ x ∈ (a :: rest).drop 16, x < 256 :=
          fun x hx => hbytes x (List.mem_of_mem_drop hx)
        exact ih _ hl' hmod' hbytes' blk hmem

theorem chunk16_blocks (l : List Nat) (hmod : l.length % 16 = 0)
    (hbytes : ∀ x ∈ l, x < 256) :
    ∀ blk ∈ chunk16 l, blk.length = 16 ∧ ∀ x ∈ blk, x < 256 :=
  chunk16Loop_blocks l.length l (Nat.le_refl _) hmod hbytes

theorem flatten_blocks_mod (blocks : List (List Nat))
    (h : ∀ blk ∈ blocks, blk.length = 16) : blocks.flatten.length % 16 = 0 := by
  induction blocks with
  | nil => rfl
  | cons b bs ih =>
    rw [List.flatten_cons, List.length_append, h b (by simp)]
    have := ih (fun blk hm => h blk (by simp [hm]))
    omega

theorem flatten_blocks_bytes (blocks : List (List Nat))
    (h : ∀ blk ∈ blocks, ∀ x ∈ blk, x < 256) : ∀ x ∈ blocks.flatten, x < 256 := by
  intro x hx
  rcases List.mem_flatten.mp hx with ⟨blk, hblk, hxblk⟩
  exact h blk hblk x hxblk

/-! ## JSON values and `json.loads`

`json.loads` on `bytes` first decodes UTF-8 (a `UnicodeDecodeError` there is
not caught by the decode `except` clause), then parses.  The parser below
models the fragment of JSON the program can meet: literals, integers,
strings with simple escapes, arrays and objects; parse failure models
`json.JSONDecodeError`.  The two recursive parsers run on a fuel counter
that `jsonLoads` sets high enough for every input (each nesting level
consumes input). -/

inductive JsonVal where
  | jnull
  | jbool (b : Bool)
  | jnum (n : Int)
  | jstr (s : String)
  | jarr (elems : List JsonVal)
  | jobj (members : List (String × JsonVal))

def isJsonWs (c : Char) : Bool :=
  decide (c = ' ' ∨ c = Char.ofNat 9 ∨ c = Char.ofNat 10 ∨ c = Char.ofNat 13)

def skipWs (l : List Char) : List Char := l.dropWhile isJsonWs

def escChar : Char → Option Char
  | '"' => some '"'
  | '\\' => some '\\'
  | '/' => some '/'
  | 'n' => some (Char.ofNat 10)
  | 't' => some (Char.ofNat 9)
  | 'r' => some (Char.ofNat 13)
  | 'b' => some (Char.ofNat 8)
  | 'f' => some (Char.ofNat 12)
  | _ => none

/-- Parse the body of a JSON string after the opening quote, up to and
including the closing quote. -/
def parseStringBody : List Char → Option (List Char × List Char)
  | [] => none
  | c :: rest =>
    if c = '"' then some ([], rest)
    else if c = '\\' then
      match rest with
      | [] => none
      | e :: rest2 =>
        (escChar e).bind (fun ec =>
          (parseStringBody rest2).map (fun p => (ec :: p.1, p.2)))
    else (parseStringBody rest).map (fun p => (c :: p.1, p.2))

def digitsToNat (ds : List Char) : Nat :=
  ds.foldl (fun acc d => acc * 10 + (d.toNat - 48)) 0

mutual

def parseJsonValue : Nat → List Char → Option (JsonVal × List Char)
  | 0, _ => none
  | fuel + 1, cs =>
    match skipWs cs with
    | [] => none
    | c :: rest =>
      if c = '"' then
        match parseStringBody rest with
        | some (sv, r) => some (.jstr ⟨sv⟩, r)
        | none => none
      else if c = Char.ofNat 123 then
        match skipWs rest with
        | c2 :: r2 =>
          if c2 = Char.ofNat 125 then some (.jobj [], r2)
          else
            match parseJsonMembers fuel rest with
            | some (ms, r) => some (.jobj ms, r)
            | none => none
        | [] => none
      else if c = '[' then
        match skipWs rest with
        | c2 :: r2 =>
          if c2 = ']' then some (.jarr [], r2)
          else
            match parseJsonElems fuel rest with
            | some (es, r) => some (.jarr es, r)
            | none => none
        | [] => none
      else if c = 't' then
        match rest with
        | 'r' :: 'u' :: 'e' :: r => some (.jbool true, r)
        | _ => none
      else if c = 'f' then
        match rest with
        | 'a' :: 'l' :: 's' :: 'e' :: r => some (.jbool false, r)
        | _ => none
      else if c = 'n' then
        match rest with
        | 'u' :: 'l' :: 'l' :: r => some (.jnull, r)
        | _ => none
      else if c = '-' then
        if (rest.takeWhile Char.isDigit).isEmpty then none
        else some (.jnum (- (digitsToNat (rest.takeWhile Char.isDigit) : Int)),
          rest.dropWhile Char.isDigit)
      else if c.isDigit then
        some (.jnum (digitsToNat (c :: rest.takeWhile Char.isDigit) : Int),
          rest.dropWhile Char.isDigit)
      else none

def parseJsonMembers : Nat → List Char → Option (List (String × JsonVal) × List Char)
  | 0, _ => none
  | fuel + 1, cs =>
    match skipWs cs with
    | c :: rest =>
      if c = '"' then
        match parseStringBody rest with
        | some (k, r1) =>
          match skipWs r1 with
          | c2 :: r2 =>
            if c2 = ':' then
              match parseJsonValue fuel r2 with
              | some (v, r3) =>
                match skipWs r3 with
                | c4 :: r4 =>
                  if c4 = ',' then
                    match parseJsonMembers fuel r4 with
                    | some (ms, r) => some ((⟨k⟩, v) :: ms, r)
                    | none => none
                  else if c4 = Char.ofNat 125 then some ([(⟨k⟩, v)], r4)
                  else none
                | [] => none
              | none => none
            else none
          | [] => none
        | none => none
      else none
    | [] => none

def parseJsonElems : Nat → List Char → Option (List JsonVal × List Char)
  | 0, _ => none
  | fuel + 1, cs =>
    match parseJsonValue fuel cs with
    | some (v, r1) =>
      match skipWs r1 with
      | c2 :: r2 =>
        if c2 = ',' then
          match parseJsonElems fuel r2 with
          | some (es, r) => some (v :: es, r)
          | none => none
        else if c2 = ']' then some ([v], r2)
        else none
      | [] => none
    | none => none

end

/-- `json.loads` over the raw decoded payload bytes. -/
def jsonLoads (bs : List Nat) : Except PyExc JsonVal :=
  match utf8Decode bs with
  | .error e => .error e
  | .ok s =>
    match parseJsonValue (s.data.length + 4) s.data with
    | some (v, r) => if skipWs r = [] then .ok v else .error .jsonDecodeError
    | none => .error .jsonDecodeError

/-! ### Parsing the envelope JSON -/

/-- The character stream of the envelope JSON object
`{"iv":"<iv64>","value":"<val64>"}`. -/
def envelopeJsonChars (iv64 val64 : List Char) : List Char :=
  Char.ofNat 123 :: '"' :: 'i' :: 'v' :: '"' :: ':' :: '"' ::
    (iv64 ++ '"' :: ',' :: '"' :: 'v' :: 'a' :: 'l' :: 'u' :: 'e' :: '"' :: ':' :: '"' ::
      (val64 ++ ['"', Char.ofNat 125]))

theorem skipWs_not (c : Char) (l : List Char) (h : isJsonWs c = false) :
    skipWs (c :: l) = c :: l := by
  simp [skipWs, List.dropWhile_cons, h]

theorem parseStringBody_content :
    ∀ (content rest : List Char), (∀ ch ∈ content, ch ≠ '"' ∧ ch ≠ '\\') →
      parseStringBody (content ++ '"' :: rest) = some (content, rest) := by
  intro content
  induction content with
  | nil =>
    intro rest _
    simp only [List.nil_append]
    rw [parseStringBody.eq_def]
    dsimp only
    rw [if_pos rfl]
  | cons c cs ih =>
    intro rest h
    have hc := h c (by simp)
    rw [List.cons_append, parseStringBody.eq_def]
    dsimp only
    rw [if_neg hc.1, if_neg hc.2, ih rest (fun ch hch => h ch (by simp [hch]))]
    rfl

theorem parseJsonValue_envelope (f : Nat) (iv64 val64 : List Char)
    (hiv : ∀ ch ∈ iv64, ch ≠ '"' ∧ ch ≠ '\\')
    (hval : ∀ ch ∈ val64, ch ≠ '"' ∧ ch ≠ '\\') :
    parseJsonValue (f + 1 + 1 + 1 + 1) (envelopeJsonChars iv64 val64)
      = some (JsonVal.jobj [(("iv" : String), JsonVal.jstr ⟨iv64⟩),
          (("value" : String), JsonVal.jstr ⟨val64⟩)], []) := by
  have h1 := parseStringBody_content iv64
    (',' :: '"' :: 'v' :: 'a' :: 'l' :: 'u' :: 'e' :: '"' :: ':' :: '"' ::
      (val64 ++ ['"', Char.ofNat 125])) hiv
  have h2 := parseStringBody_content val64 [Char.ofNat 125] hval
  have hkey1 : parseStringBody ('i' :: 'v' :: '"' :: ':' :: '"' ::
      (iv64 ++ '"' :: ',' :: '"' :: 'v' :: 'a' :: 'l' :: 'u' :: 'e' :: '"' :: ':' :: '"' ::
        (val64 ++ ['"', Char.ofNat 125])))
      = some (['i', 'v'], ':' :: '"' ::
        (iv64 ++ '"' :: ',' :: '"' :: 'v' :: 'a' :: 'l' :: 'u' :: 'e' :: '"' :: ':' :: '"' ::
          (val64 ++ ['"', Char.ofNat 125]))) := by
    have := parseStringBody_content ['i', 'v'] (':' :: '"' ::
      (iv64 ++ '"' :: ',' :: '"' :: 'v' :: 'a' :: 'l' :: 'u' :: 'e' :: '"' :: ':' :: '"' ::
        (val64 ++ ['"', Char.ofNat 125]))) (by decide)
    simpa using this
  have hkey2 : parseStringBody ('v' :: 'a' :: 'l' :: 'u' :: 'e' :: '"' :: ':' :: '"' ::
      (val64 ++ ['"', Char.ofNat 125]))
      = some (['v', 'a', 'l', 'u', 'e'], ':' :: '"' :: (val64 ++ ['"', Char.ofNat 125])) := by
    have := parseStringBody_content ['v', 'a', 'l', 'u', 'e']
      (':' :: '"' :: (val64 ++ ['"', Char.ofNat 125])) (by decide)
    simpa using this
  have hne1 : ¬ (Char.ofNat 123 = '"') := by decide
  have hne2 : ¬ (('"' : Char) = Char.ofNat 125) := by decide
  have hne3 : ¬ (Char.ofNat 125 = ',') := by decide
  have hsko : ∀ l : List Char, skipWs (Char.ofNat 123 :: l) = Char.ofNat 123 :: l :=
    fun l => skipWs_not _ l (by decide)
  have hskq : ∀ l : List Char, skipWs ('"' :: l) = '"' :: l :=
    fun l => skipWs_not _ l (by decide)
  have hskc : ∀ l : List Char, skipWs (':' :: l) = ':' :: l :=
    fun l => skipWs_not _ l (by decide)
  have hskm : ∀ l : List Char, skipWs (',' :: l) = ',' :: l :=
    fun l => skipWs_not _ l (by decide)
  have hskb : ∀ l : List Char, skipWs (Char.ofNat 125 :: l) = Char.ofNat 125 :: l :=
    fun l => skipWs_not _ l (by decide)
  simp only [envelopeJsonChars, parseJsonValue, parseJsonMembers,
    hsko, hskq, hskc, hskm, hskb, hkey1, hkey2, h1, h2, hne1, hne2, hne3,
    if_pos, if_neg, eq_self_iff_true, if_true, if_false, ite_true, ite_false]

/-! ## The decryption function (src/app.py lines 31-109) -/

/-- Python `dict` lookup on an association list (first binding wins; the
dictionaries modelled here have unique keys). -/
def lookup? {α : Type} (d : List (String × α)) (k : String) : Option α :=
  (d.find? (fun p => p.1 == k)).map Prod.snd

/-- `json_data['iv']`-style subscription: `KeyError` on a missing key of an
object, `TypeError` when the parsed JSON value is not an object (Python
lists/strings/numbers do not accept string subscripts). -/
def pyGetItem (v : JsonVal) (k : String) : Except PyExc JsonVal :=
  match v with
  | .jobj ms =>
    match lookup? ms k with
    | some x => .ok x
    | none => .error .keyError
  | _ => .error .typeError

/-- `base64.b64decode(v)` for a parsed JSON value: `TypeError` unless the
value is a string. -/
def pyB64decodeVal (v : JsonVal) : Except PyExc (List Nat) :=
  match v with
  | .jstr s => b64decodeStr s
  | _ => .error .typeError

/-- Lines 48-61: the body of the first `try` block after the padding fix-up:
Base64-decode the outer envelope, `json.loads` it, extract and Base64-decode
`iv` and `value`. -/
def stage1 (padded : String) : Except PyExc (List Nat × List Nat) :=
  match b64decodeStr padded with
  | .error e => .error e
  | .ok payload =>
    match jsonLoads payload with
    | .error e => .error e
    | .ok jsonData =>
      match pyGetItem jsonData ("iv") with
      | .error e => .error e
      | .ok ivVal =>
        match pyB64decodeVal ivVal with
        | .error e => .error e
        | .ok ivBytes =>
          match pyGetItem jsonData ("value") with
          | .error e => .error e
          | .ok valVal =>
            match pyB64decodeVal valVal with
            | .error e => .error e
            | .ok valBytes => .ok (ivBytes, valBytes)

/-- Lines 67-104: the body of the second `try` block: build the AES-CBC
cipher (pycryptodome validates key and IV sizes with `ValueError`), decrypt,
strip PKCS7 padding, decode UTF-8 and apply the Laravel unwrapping. -/
def stage2 (C : BlockCipher) (app_key_str : String) (ivBytes ctBytes : List Nat) :
    Except PyExc String :=
  let keyBytes := utf8Encode app_key_str
  if ¬ (keyBytes.length = 16 ∨ keyBytes.length = 24 ∨ keyBytes.length = 32) then
    .error .valueError
  else if ivBytes.length ≠ 16 then .error .valueError
  else
    match cipherDecrypt C keyBytes ivBytes ctBytes with
    | .error e => .error e
    | .ok decrypted =>
      match pkcs7Unpad decrypted with
      | .error e => .error e
      | .ok unpadded =>
        match utf8Decode unpadded with
        | .error e => .error e
        | .ok plaintext => .ok (unwrapLaravel plaintext)

/-- src/app.py lines 31-109, `decrypt_laravel_string_unsafe`.  A `.ok` value
is the string the Python function returns (recovered plaintext or error
message); a `.error` value is an exception escaping the function — only
possible for exception classes the two `except` clauses miss. -/
def decrypt_laravel_string_unsafe (C : BlockCipher)
    (encrypted_data_str app_key_str : String) : Except PyExc String :=
  if app_key_str = "" then .ok ("Decryption key (APP_KEY_STR) is missing.")
  else
    match stage1 (padBase64 encrypted_data_str) with
    | .error e =>
      if caughtByDecodeExcept e then
        .ok (("An error occurred during initial decoding: ") ++ pyExcMsg e)
      else .error e
    | .ok (ivBytes, ctBytes) =>
      match stage2 C app_key_str ivBytes ctBytes with
      | .error e => .ok (("An error occurred during decryption: ") ++ pyExcMsg e)
      | .ok s => .ok s

/-! ## The encrypt side (modelled from the spec)

The repository has no write path; for the round-trip property (§8 of the
spec) the envelope is built exactly as the spec describes the encrypt side:
UTF-8 encode, PKCS7-pad, AES-256-CBC encrypt, Base64-encode `iv` and
`value`, JSON-wrap, Base64-encode the JSON. -/

/-- Modelled from the spec: the JSON wrapping `{"iv": ..., "value": ...}` of
the envelope (the repository's read path only consumes it). -/
def envelopeJson (iv64 val64 : String) : String :=
  ("\x7b\"iv\":\"") ++ iv64 ++ ("\",\"value\":\"") ++ val64 ++ ("\"\x7d")

/-- Modelled from the spec: the encrypt-side envelope construction. -/
def buildEnvelope (C : BlockCipher) (app_key_str : String) (iv : List Nat)
    (plaintext : String) : String :=
  b64encodeStr (utf8Encode (envelopeJson (b64encodeStr iv)
    (b64encodeStr ((cbcEncryptBlocks C (utf8Encode app_key_str) iv
      (chunk16 (pkcs7Pad (utf8Encode plaintext)))).flatten))))

theorem envelopeJson_data (iv64 val64 : String) :
    (envelopeJson iv64 val64).data = envelopeJsonChars iv64.data val64.data := by
  have hl1 : ("\x7b\"iv\":\"").data
      = [Char.ofNat 123, '"', 'i', 'v', '"', ':', '"'] := rfl
  have hl2 : ("\",\"value\":\"").data
      = ['"', ',', '"', 'v', 'a', 'l', 'u', 'e', '"', ':', '"'] := rfl
  have hl3 : ("\"\x7d").data = ['"', Char.ofNat 125] := rfl
  simp [envelopeJson, envelopeJsonChars, String.data_append, hl1, hl2, hl3]

/-! ### Round trip through the full pipeline -/

theorem pkcs7Pad_length_mod (d : List Nat) : (pkcs7Pad d).length % 16 = 0 := by
  simp [pkcs7Pad]
  omega

theorem pkcs7Pad_bytes (d : List Nat) (h : ∀ x ∈ d, x < 256) :
    ∀ x ∈ pkcs7Pad d, x < 256 := by
  intro x hx
  rw [pkcs7Pad] at hx
  rcases List.mem_append.mp hx with hm | hm
  · exact h x hm
  · have := List.eq_of_mem_replicate hm
    omega

theorem isB64Symbol_ne (ch : Char) (h : isB64Symbol ch = true) :
    ch ≠ '"' ∧ ch ≠ '\\' := by
  constructor
  · intro hq; rw [hq] at h; exact absurd h (by decide)
  · intro hq; rw [hq] at h; exact absurd h (by decide)

theorem b64encodeStr_length_mod (bs : List Nat) : (b64encodeStr bs).length % 4 = 0 := by
  have : (b64encodeStr bs).length = (b64encodeList bs).length := rfl
  rw [this, b64encodeList_length_mod]

theorem padBase64_encodeStr (bs : List Nat) : padBase64 (b64encodeStr bs) = b64encodeStr bs := by
  rw [padBase64, if_neg]
  rw [b64encodeStr_length_mod]
  intro hcon
  exact hcon rfl

theorem jsonLoads_envelope (iv64 val64 : String)
    (hiv : ∀ ch ∈ iv64.data, ch ≠ '"' ∧ ch ≠ '\\')
    (hval : ∀ ch ∈ val64.data, ch ≠ '"' ∧ ch ≠ '\\') :
    jsonLoads (utf8Encode (envelopeJson iv64 val64))
      = .ok (JsonVal.jobj [(("iv" : String), JsonVal.jstr iv64),
          (("value" : String), JsonVal.jstr val64)]) := by
  have hdata := envelopeJson_data iv64 val64
  have hfuel : (envelopeJsonChars iv64.data val64.data).length + 4
      = (envelopeJsonChars iv64.data val64.data).length + 1 + 1 + 1 + 1 := by omega
  rw [jsonLoads, utf8Decode_encode]
  dsimp only
  rw [hdata, hfuel, parseJsonValue_envelope _ _ _ hiv hval]
  rfl

theorem stage1_buildEnvelope (C : BlockCipher) (hC : C.Valid) (key : String)
    (hkey : (utf8Encode key).length = 32) (iv : List Nat) (hivlen : iv.length = 16)
    (hivb : ∀ x ∈ iv, x < 256) (plaintext : String) :
    stage1 (padBase64 (buildEnvelope C key iv plaintext))
      = .ok (iv, (cbcEncryptBlocks C (utf8Encode key) iv
          (chunk16 (pkcs7Pad (utf8Encode plaintext)))).flatten) := by
  set padded : List Nat := pkcs7Pad (utf8Encode plaintext) with hpadded
  set ct : List Nat := (cbcEncryptBlocks C (utf8Encode key) iv (chunk16 padded)).flatten
    with hct
  have hpadmod : padded.length % 16 = 0 := pkcs7Pad_length_mod _
  have hpadbytes : ∀ x ∈ padded, x < 256 := pkcs7Pad_bytes _ (utf8Encode_bytes plaintext)
  have hblocks : ∀ blk ∈ chunk16 padded, blk.length = 16 ∧ ∀ x ∈ blk, x < 256 :=
    chunk16_blocks padded hpadmod hpadbytes
  have hctblocks : ∀ ctb ∈ cbcEncryptBlocks C (utf8Encode key) iv (chunk16 padded),
      ctb.length = 16 ∧ ∀ x ∈ ctb, x < 256 :=
    cbcEncryptBlocks_spec C hC (utf8Encode key) hkey (chunk16 padded) iv hblocks hivlen hivb
  have hctbytes : ∀ x ∈ ct, x < 256 :=
    flatten_blocks_bytes _ (fun blk hblk => (hctblocks blk hblk).2)
  have h1 : b64decodeStr (b64encodeStr (utf8Encode
        (envelopeJson (b64encodeStr iv) (b64encodeStr ct))))
      = .ok (utf8Encode (envelopeJson (b64encodeStr iv) (b64encodeStr ct))) :=
    b64decodeStr_encodeStr _ (utf8Encode_bytes _)
  have hivchars : ∀ ch ∈ (b64encodeStr iv).data, ch ≠ '"' ∧ ch ≠ '\\' :=
    fun ch hch => isB64Symbol_ne ch (b64encodeList_chars iv hivb ch hch).1
  have hctchars : ∀ ch ∈ (b64encodeStr ct).data, ch ≠ '"' ∧ ch ≠ '\\' :=
    fun ch hch => isB64Symbol_ne ch (b64encodeList_chars ct hctbytes ch hch).1
  have h2 := jsonLoads_envelope (b64encodeStr iv) (b64encodeStr ct) hivchars hctchars
  have hgi : pyGetItem (JsonVal.jobj [(("iv" : String), JsonVal.jstr (b64encodeStr iv)),
        (("value" : String), JsonVal.jstr (b64encodeStr ct))]) ("iv")
      = .ok (JsonVal.jstr (b64encodeStr iv)) := by
    rw [pyGetItem]
    rfl
  have hgv : pyGetItem (JsonVal.jobj [(("iv" : String), JsonVal.jstr (b64encodeStr iv)),
        (("value" : String), JsonVal.jstr (b64encodeStr ct))]) ("value")
      = .ok (JsonVal.jstr (b64encodeStr ct)) := by
    rw [pyGetItem]
    rfl
  have hbi : pyB64decodeVal (JsonVal.jstr (b64encodeStr iv)) = .ok iv := by
    rw [pyB64decodeVal]
    exact b64decodeStr_encodeStr iv hivb
  have hbv : pyB64decodeVal (JsonVal.jstr (b64encodeStr ct)) = .ok ct := by
    rw [pyB64decodeVal]
    exact b64decodeStr_encodeStr ct hctbytes
  rw [buildEnvelope, ← hpadded, ← hct, padBase64_encodeStr]
  simp only [stage1, h1, h2, hgi, hgv, hbi, hbv]

theorem stage2_roundtrip (C : BlockCipher) (hC : C.Valid) (key : String)
    (hkey : (utf8Encode key).length = 32) (iv : List Nat) (hivlen : iv.length = 16)
    (hivb : ∀ x ∈ iv, x < 256) (plaintext : String) :
    stage2 C key iv ((cbcEncryptBlocks C (utf8Encode key) iv
        (chunk16 (pkcs7Pad (utf8Encode plaintext)))).flatten)
      = .ok (unwrapLaravel plaintext) := by
  set padded : List Nat := pkcs7Pad (utf8Encode plaintext) with hpadded
  set encBlocks : List (List Nat) := cbcEncryptBlocks C (utf8Encode key) iv (chunk16 padded)
    with hencBlocks
  have hpadmod : padded.length % 16 = 0 := pkcs7Pad_length_mod _
  have hpadbytes : ∀ x ∈ padded, x < 256 := pkcs7Pad_bytes _ (utf8Encode_bytes plaintext)
  have hblocks : ∀ blk ∈ chunk16 padded, blk.length = 16 ∧ ∀ x ∈ blk, x < 256 :=
    chunk16_blocks padded hpadmod hpadbytes
  have hctblocks : ∀ ctb ∈ encBlocks, ctb.length = 16 ∧ ∀ x ∈ ctb, x < 256 :=
    cbcEncryptBlocks_spec C hC (utf8Encode key) hkey (chunk16 padded) iv hblocks hivlen hivb
  have hctmod : encBlocks.flatten.length % 16 = 0 :=
    flatten_blocks_mod _ (fun blk hblk => (hctblocks blk hblk).1)
  have hchunkct : chunk16 encBlocks.flatten = encBlocks :=
    chunk16_flatten _ (fun blk hblk => (hctblocks blk hblk).1)
  have hcbc : cbcDecryptBlocks C (utf8Encode key) iv encBlocks = chunk16 padded := by
    rw [hencBlocks]
    exact cbcDecrypt_encrypt C hC (utf8Encode key) hkey (chunk16 padded) iv hblocks hivlen hivb
  rw [stage2]
  rw [if_neg (by simp [hkey]), if_neg (by simp [hivlen])]
  rw [cipherDecrypt, if_neg (by omega), hchunkct, hcbc, flatten_chunk16]
  dsimp only
  rw [pkcs7Unpad_pad]
  dsimp only
  rw [utf8Decode_encode]

/-- Full round trip: decrypting an envelope built exactly as the encrypt
side describes, with the same key, recovers `unwrap(plaintext)`. -/
theorem decrypt_buildEnvelope (C : BlockCipher) (hC : C.Valid) (key : String)
    (hkey : (utf8Encode key).length = 32) (iv : List Nat) (hivlen : iv.length = 16)
    (hivb : ∀ x ∈ iv, x < 256) (plaintext : String) :
    decrypt_laravel_string_unsafe C (buildEnvelope C key iv plaintext) key
      = .ok (unwrapLaravel plaintext) := by
  have hkeyne : ¬ (key = "") := by
    intro hcon
    rw [hcon] at hkey
    exact absurd hkey (by decide)
  rw [ decrypt_laravel_string_unsafe, if_neg hkeyne,
    stage1_buildEnvelope C hC key hkey iv hivlen hivb plaintext]
  dsimp only
  rw [stage2_roundtrip C hC key hkey iv hivlen hivb plaintext]

/-- The identity block permutation: a legitimate (if useless) block cipher,
used to instantiate the abstract cipher parameter in witnesses. -/
def idCipher : BlockCipher := ⟨fun _ b => b, fun _ b => b⟩

theorem idCipher_valid : idCipher.Valid :=
  fun _ _ _ hb hbb => ⟨rfl, hb, hbb⟩

/-- The 32-character (32-byte) key used in concrete witnesses. -/
def witnessKey : String := "0123456789abcdef0123456789abcdef"

/-- C4 counterexample: the round trip does not return the original plaintext
for every plaintext — the decrypt side also unwraps.  For the plaintext
`"a"` (with quotes) the round trip returns `a`. -/
theorem claim_C4_counterexample :
    decrypt_laravel_string_unsafe idCipher
        (buildEnvelope idCipher witnessKey (List.replicate 16 0) ("\"a\"")) witnessKey
      = .ok ("a")
    ∧ ("a" : String) ≠ "\"a\"" := by
  constructor
  · rfl
  · decide

/-- C4 (amended): building the envelope as the encrypt side does and
decrypting it with the same 32-byte key returns `unwrap(plaintext)` — the
original plaintext exactly when the plaintext is a fixed point of the
unwrapper (no surrounding quotes, no `s:N:"...";` framing). -/
theorem claim_C4_amended (C : BlockCipher) (hC : C.Valid) (key : String)
    (hkey : (utf8Encode key).length = 32) (iv : List Nat) (hivlen : iv.length = 16)
    (hivb : ∀ x ∈ iv, x < 256) (plaintext : String) :
    decrypt_laravel_string_unsafe C (buildEnvelope C key iv plaintext) key
      = .ok (unwrapLaravel plaintext) :=
  decrypt_buildEnvelope C hC key hkey iv hivlen hivb plaintext

theorem claim_C4_witness :
    decrypt_laravel_string_unsafe idCipher
        (buildEnvelope idCipher witnessKey (List.replicate 16 0) ("hello")) witnessKey
      = .ok (unwrapLaravel ("hello")) :=
  claim_C4_amended idCipher idCipher_valid witnessKey (by decide)
    (List.replicate 16 0) (by decide) (by decide) ("hello")

/-! ## C7: the Base64 padding fix-up -/

/-- The envelope with all trailing `=` characters removed. -/
def dropTrailingEq (s : String) : String :=
  ⟨(s.data.reverse.dropWhile (fun c => c == '=')).reverse⟩

/-- The number of trailing `=` characters. -/
def countTrailingEq (s : String) : Nat :=
  (s.data.reverse.takeWhile (fun c => c == '=')).length

theorem padBase64_eq_self (s : String) (hmod : s.length % 4 = 0) :
    padBase64 s = s := by
  rw [padBase64, if_neg]
  intro hcon
  exact hcon hmod

theorem string_eq_of_data {s t : String} (h : s.data = t.data) : s = t := by
  cases s
  cases t
  simp_all

theorem dropTrailingEq_split (s : String) :
    s.data = (dropTrailingEq s).data ++ List.replicate (countTrailingEq s) '=' := by
  have hall : ∀ b ∈ s.data.reverse.takeWhile (fun c => c == '='), b = '=' := by
    intro b hb
    have hp := List.mem_takeWhile_imp hb
    exact eq_of_beq hp
  have hrep : s.data.reverse.takeWhile (fun c => c == '=')
      = List.replicate (countTrailingEq s) '=' :=
    List.eq_replicate_of_mem hall
  calc s.data = s.data.reverse.reverse := by rw [List.reverse_reverse]
  _ = (s.data.reverse.takeWhile (fun c => c == '=')
        ++ s.data.reverse.dropWhile (fun c => c == '=')).reverse := by
      rw [List.takeWhile_append_dropWhile]
  _ = (s.data.reverse.dropWhile (fun c => c == '=')).reverse
        ++ (s.data.reverse.takeWhile (fun c => c == '=')).reverse := by
      rw [List.reverse_append]
  _ = (dropTrailingEq s).data ++ List.replicate (countTrailingEq s) '=' := by
      rw [hrep, List.reverse_replicate]
      rfl

theorem padBase64_dropTrailingEq (s : String) (hmod : s.length % 4 = 0)
    (hcount : countTrailingEq s ≤ 2) : padBase64 (dropTrailingEq s) = s := by
  have hsplit := dropTrailingEq_split s
  have hdlen : s.data.length = (dropTrailingEq s).data.length + countTrailingEq s := by
    rw [hsplit]
    simp
  have hslen : s.length = s.data.length := rfl
  have hdslen : (dropTrailingEq s).length = (dropTrailingEq s).data.length := rfl
  rcases Nat.eq_zero_or_pos (countTrailingEq s) with hk | hk
  · have hdata : (dropTrailingEq s).data = s.data := by
      rw [hsplit, hk]
      simp
    have hds : dropTrailingEq s = s := string_eq_of_data hdata
    rw [hds, padBase64_eq_self s hmod]
  · have hs4 : 4 ≤ s.data.length := by omega
    have hdmod : (dropTrailingEq s).length % 4 = 4 - countTrailingEq s := by
      rw [hdslen]
      omega
    rw [padBase64, if_pos (by rw [hdmod]; omega)]
    apply string_eq_of_data
    rw [String.data_append, hsplit, hdmod]
    have h44 : 4 - (4 - countTrailingEq s) = countTrailingEq s := by omega
    rw [h44]

/-- C7: decrypt pads the envelope back to a multiple of 4 with `=`, so
removing the trailing `=` padding from a well-padded envelope does not change
the result. -/
theorem claim_C7 (C : BlockCipher) (s key : String) (hmod : s.length % 4 = 0)
    (hcount : countTrailingEq s ≤ 2) :
    decrypt_laravel_string_unsafe C (dropTrailingEq s) key
      = decrypt_laravel_string_unsafe C s key := by
  have hpad : padBase64 (dropTrailingEq s) = padBase64 s := by
    rw [padBase64_dropTrailingEq s hmod hcount, padBase64_eq_self s hmod]
  rw [ decrypt_laravel_string_unsafe, decrypt_laravel_string_unsafe, hpad]

theorem claim_C7_witness :
    decrypt_laravel_string_unsafe idCipher (dropTrailingEq ("QQ==")) ("k")
      = decrypt_laravel_string_unsafe idCipher ("QQ==") ("k") :=
  claim_C7 idCipher ("QQ==") ("k") (by decide) (by decide)

/-! ## The movie endpoint (src/app.py lines 150-237)

The upstream fetch is an external collaborator; the endpoint model takes the
upstream JSON record as input.  Python dictionaries preserve insertion order
and have unique keys; they are modelled as association lists, with
`d[k] = v` updating in place or appending. -/

def encrypted_url_keys : List String :=
  ["vstream", "vdownload2", "vbackup", "freemium", "download", "stream", "astream"]

def PREFERRED_MOVIE_KEY_ORDER : List String :=
  ["id", "movietitle", "movieyear", "moviegenres", "language", "imdb",
   "quality", "review", "image",
   "vstream", "stream", "astream", "freemium", "download", "vdownload2", "vbackup",
   "premium", "downloadcount", "viewcount", "filesize"]

/-- Python dict assignment `d[k] = v`: update the existing binding in place,
or append a new one. -/
def odSet {α : Type} (d : List (String × α)) (k : String) (v : α) : List (String × α) :=
  if d.any (fun p => p.1 == k) then
    d.map (fun p => if p.1 = k then (k, v) else p)
  else d ++ [(k, v)]

/-- Lines 183-190: for each encrypted-URL key, replace a string value by the
decryption result and any other situation (absent key, non-string value) by
`None`.  An exception escaping `decrypt_laravel_string_unsafe` aborts the
loop (it is only caught by the endpoint's catch-all handler). -/
def substituteFields (C : BlockCipher) (app_key : String) :
    List String → List (String × JsonVal) → Except PyExc (List (String × JsonVal))
  | [], md => .ok md
  | k :: ks, md =>
    match lookup? md k with
    | some (JsonVal.jstr s) =>
      match decrypt_laravel_string_unsafe C s app_key with
      | .error e => .error e
      | .ok d => substituteFields C app_key ks (odSet md k (JsonVal.jstr d))
    | _ => substituteFields C app_key ks (odSet md k JsonVal.jnull)

/-- Lines 201-211: rebuild the record with the preferred keys first (those
present in the record, in preference order), then the remaining keys in
their original relative order. -/
def reorderKeys {α : Type} (order : List String) (rec : List (String × α)) :
    List (String × α) :=
  rec.foldl
    (fun acc p => if acc.any (fun q => q.1 == p.1) then acc else acc ++ [(p.1, p.2)])
    (order.foldl
      (fun acc k =>
        match lookup? rec k with
        | some v => odSet acc k v
        | none => acc) [])

/-- Lines 178-215: the record transformation of the movie endpoint
(field substitution followed by the key reordering). -/
def processMovieData (C : BlockCipher) (app_key : String)
    (movieData : List (String × JsonVal)) : Except PyExc (List (String × JsonVal)) :=
  match substituteFields C app_key encrypted_url_keys movieData with
  | .error e => .error e
  | .ok md => .ok (reorderKeys PREFERRED_MOVIE_KEY_ORDER md)

/-- The observable outcome of the endpoint: a JSON body, or an error
response with an HTTP status. -/
inductive EndpointResult where
  | success (body : List (String × JsonVal))
  | errorResponse (status : Nat) (message : String)

/-- src/app.py lines 150-237, `get_movie_details`, with the upstream record
given: the missing-key guard (lines 162-163), the per-field decryption, the
reordering, and the catch-all `except Exception` (lines 235-237) that turns
an escaped exception into a 500 response. -/
def get_movie_details (C : BlockCipher) (appKeyEnv : Option String)
    (movieData : List (String × JsonVal)) : EndpointResult :=
  match appKeyEnv with
  | none => .errorResponse 500 ("Server configuration error: Decryption key is missing.")
  | some k =>
    if k = "" then
      .errorResponse 500 ("Server configuration error: Decryption key is missing.")
    else
      match processMovieData C k movieData with
      | .ok r => .success r
      | .error e => .errorResponse 500 (("An unexpected error occurred: ") ++ pyExcMsg e)

/-- C8: an empty or missing key makes the decryption function return its
fixed message before any decoding, and makes the endpoint answer 500 with an
explicit decryption-key-missing error. -/
theorem claim_C8 :
    (∀ (C : BlockCipher) (env : String),
      decrypt_laravel_string_unsafe C env ("")
        = .ok ("Decryption key (APP_KEY_STR) is missing."))
    ∧ (∀ (C : BlockCipher) (movieData : List (String × JsonVal)),
      get_movie_details C none movieData
          = .errorResponse 500 ("Server configuration error: Decryption key is missing.")
        ∧ get_movie_details C (some "") movieData
          = .errorResponse 500 ("Server configuration error: Decryption key is missing.")) := by
  constructor
  · intro C env
    rw [ decrypt_laravel_string_unsafe, if_pos rfl]
  · intro C md
    exact ⟨rfl, rfl⟩

/-- C2 is a code bug: on the envelope `W10=` (the Base64 encoding of `[]`),
`json.loads` returns a list and `json_data['iv']` raises `TypeError`, which
the first `except` clause does not name; the exception escapes
`decrypt_laravel_string_unsafe` and the endpoint's catch-all turns the whole
request into a 500 — sibling fields are never processed. -/
theorem claim_C2 :
    decrypt_laravel_string_unsafe idCipher ("W10=") ("k") = .error PyExc.typeError
    ∧ get_movie_details idCipher (some witnessKey)
        ([(("vstream" : String), JsonVal.jstr ("W10=")),
          (("id" : String), JsonVal.jnum 7)])
      = .errorResponse 500 ("An unexpected error occurred: TypeError") :=
  ⟨rfl, rfl⟩

/-! ### Association-list lemmas for the record transformations -/

/-- The key list of a record, in order. -/
def recKeys {α : Type} (d : List (String × α)) : List String := d.map Prod.fst

theorem lookup?_cons {α : Type} (p : String × α) (d : List (String × α)) (k : String) :
    lookup? (p :: d) k = if p.1 = k then some p.2 else lookup? d k := by
  rw [lookup?, List.find?_cons]
  by_cases h : p.1 = k
  · rw [if_pos h]
    have hb : (p.1 == k) = true := beq_iff_eq.mpr h
    rw [hb]
    rfl
  · rw [if_neg h]
    have hb : (p.1 == k) = false := beq_eq_false_iff_ne.mpr h
    rw [hb]
    rfl

theorem any_key_iff {α : Type} (d : List (String × α)) (k : String) :
    d.any (fun p => p.1 == k) = true ↔ k ∈ recKeys d := by
  rw [List.any_eq_true, recKeys]
  constructor
  · rintro ⟨p, hp, hbeq⟩
    exact List.mem_map.mpr ⟨p, hp, eq_of_beq hbeq⟩
  · intro hm
    rcases List.mem_map.mp hm with ⟨p, hp, hfst⟩
    exact ⟨p, hp, beq_iff_eq.mpr hfst⟩

theorem lookup?_isSome_iff {α : Type} (d : List (String × α)) (k : String) :
    (lookup? d k).isSome = true ↔ k ∈ recKeys d := by
  induction d with
  | nil => simp [lookup?, recKeys]
  | cons p d' ih =>
    rw [lookup?_cons]
    by_cases h : p.1 = k
    · simp [h, recKeys]
    · rw [if_neg h]
      simp only [recKeys, List.map_cons, List.mem_cons]
      rw [ih]
      constructor
      · intro hm; exact Or.inr hm
      · rintro (hm | hm)
        · exact absurd hm.symm h
        · exact hm

theorem lookup?_eq_none_of_not_mem {α : Type} (d : List (String × α)) (k : String)
    (h : k ∉ recKeys d) : lookup? d k = none := by
  cases hl : lookup? d k with
  | none => rfl
  | some v =>
    exact absurd ((lookup?_isSome_iff d k).mp (by rw [hl]; rfl)) h

theorem lookup?_append {α : Type} (d1 d2 : List (String × α)) (k : String) :
    lookup? (d1 ++ d2) k
      = match lookup? d1 k with
        | some v => some v
        | none => lookup? d2 k := by
  induction d1 with
  | nil => simp [lookup?]
  | cons p d' ih =>
    rw [List.cons_append, lookup?_cons, lookup?_cons]
    by_cases h : p.1 = k
    · rw [if_pos h, if_pos h]
    · rw [if_neg h, if_neg h, ih]

theorem lookup?_filter_of_key_pred {α : Type} (d : List (String × α)) (k : String)
    (q : String × α → Bool) (hq : ∀ p ∈ d, p.1 = k → q p = true) :
    lookup? (d.filter q) k = lookup? d k := by
  induction d with
  | nil => rfl
  | cons p d' ih =>
    rw [List.filter_cons]
    by_cases h : p.1 = k
    · rw [if_pos (hq p (by simp) h), lookup?_cons, lookup?_cons,
        if_pos h, if_pos h]
    · by_cases hqp : q p = true
      · rw [if_pos hqp, lookup?_cons, lookup?_cons, if_neg h, if_neg h]
        exact ih (fun r hr hrk => hq r (by simp [hr]) hrk)
      · rw [if_neg (by simp [hqp]), lookup?_cons, if_neg h]
        exact ih (fun r hr hrk => hq r (by simp [hr]) hrk)

theorem lookup?_filter_none {α : Type} (d : List (String × α)) (k : String)
    (q : String × α → Bool) (h : lookup? d k = none) :
    lookup? (d.filter q) k = none := by
  apply lookup?_eq_none_of_not_mem
  intro hmem
  have hsub : k ∈ recKeys d := by
    rcases List.mem_map.mp hmem with ⟨p, hp, hfst⟩
    exact List.mem_map.mpr ⟨p, List.mem_of_mem_filter hp, hfst⟩
  have hs := (lookup?_isSome_iff d k).mpr hsub
  rw [h] at hs
  exact Bool.noConfusion hs

theorem keys_map_set {α : Type} (d : List (String × α)) (k : String) (v : α) :
    recKeys (d.map (fun p => if p.1 = k then (k, v) else p)) = recKeys d := by
  rw [recKeys, recKeys, List.map_map]
  apply List.map_congr_left
  intro p _
  by_cases h : p.1 = k
  · simp [h]
  · simp [h]

theorem lookup?_map_set_ne {α : Type} (d : List (String × α)) (k : String) (v : α)
    (k' : String) (hne : k' ≠ k) :
    lookup? (d.map (fun p => if p.1 = k then (k, v) else p)) k' = lookup? d k' := by
  induction d with
  | nil => rfl
  | cons p d' ih =>
    rw [List.map_cons, lookup?_cons, lookup?_cons]
    by_cases h : p.1 = k
    · rw [if_pos h,
        if_neg (show ¬ ((k, v).1 = k') from fun hc => hne hc.symm),
        if_neg (show ¬ (p.1 = k') from fun hc => hne (hc.symm.trans h))]
      exact ih
    · rw [if_neg h]
      by_cases h2 : p.1 = k'
      · rw [if_pos h2, if_pos h2]
      · rw [if_neg h2, if_neg h2]
        exact ih

theorem lookup?_map_set_self {α : Type} (d : List (String × α)) (k : String) (v : α)
    (hmem : k ∈ recKeys d) :
    lookup? (d.map (fun p => if p.1 = k then (k, v) else p)) k = some v := by
  induction d with
  | nil => simp [recKeys] at hmem
  | cons p d' ih =>
    rw [List.map_cons, lookup?_cons]
    by_cases h : p.1 = k
    · rw [if_pos h, if_pos (show ((k, v).1 = k) from rfl)]
    · rw [if_neg h, if_neg (show ¬ (p.1 = k) from h)]
      apply ih
      have hre : recKeys (p :: d') = p.1 :: recKeys d' := rfl
      rw [hre] at hmem
      rcases List.mem_cons.mp hmem with hk | hk
      · exact absurd hk.symm h
      · exact hk

theorem odSet_of_not_mem {α : Type} (d : List (String × α)) (k : String) (v : α)
    (h : k ∉ recKeys d) : odSet d k v = d ++ [(k, v)] := by
  rw [odSet, if_neg]
  intro hany
  exact h ((any_key_iff d k).mp hany)

theorem lookup?_odSet {α : Type} (d : List (String × α)) (k : String) (v : α)
    (k' : String) :
    lookup? (odSet d k v) k' = if k' = k then some v else lookup? d k' := by
  rw [odSet]
  by_cases hany : d.any (fun p => p.1 == k) = true
  · rw [if_pos hany]
    by_cases hk : k' = k
    · rw [if_pos hk, hk, lookup?_map_set_self d k v ((any_key_iff d k).mp hany)]
    · rw [if_neg hk, lookup?_map_set_ne d k v k' hk]
  · rw [if_neg hany]
    have hnm : k ∉ recKeys d := fun hm => hany ((any_key_iff d k).mpr hm)
    have hnone : lookup? d k = none := lookup?_eq_none_of_not_mem d k hnm
    rw [lookup?_append]
    by_cases hk : k' = k
    · rw [if_pos hk, hk, hnone, lookup?_cons, if_pos rfl]
    · rw [if_neg hk]
      cases hl : lookup? d k' with
      | none =>
        rw [lookup?_cons, if_neg (show ¬ ((k, v).1 = k') from fun hc => hk hc.symm)]
        rfl
      | some w => rfl

theorem recKeys_odSet {α : Type} (d : List (String × α)) (k : String) (v : α) :
    recKeys (odSet d k v)
      = if k ∈ recKeys d then recKeys d else recKeys d ++ [k] := by
  rw [odSet]
  by_cases hany : d.any (fun p => p.1 == k) = true
  · rw [if_pos hany, keys_map_set, if_pos ((any_key_iff d k).mp hany)]
  · rw [if_neg hany, if_neg (fun hm => hany ((any_key_iff d k).mpr hm))]
    rw [recKeys, recKeys, List.map_append]
    rfl

theorem recKeys_odSet_nodup {α : Type} (d : List (String × α)) (k : String) (v : α)
    (h : (recKeys d).Nodup) : (recKeys (odSet d k v)).Nodup := by
  rw [recKeys_odSet]
  by_cases hm : k ∈ recKeys d
  · rw [if_pos hm]
    exact h
  · rw [if_neg hm]
    refine List.nodup_append.mpr ⟨h, List.nodup_singleton k, ?_⟩
    intro a ha hak
    rw [List.mem_singleton] at hak
    subst hak
    exact hm ha

theorem mem_recKeys_odSet {α : Type} (d : List (String × α)) (k : String) (v : α)
    (k' : String) : k' ∈ recKeys (odSet d k v) ↔ k' ∈ recKeys d ∨ k' = k := by
  rw [recKeys_odSet]
  by_cases hm : k ∈ recKeys d
  · rw [if_pos hm]
    constructor
    · exact Or.inl
    · rintro (h | rfl)
      · exact h
      · exact hm
  · rw [if_neg hm]
    simp

/-! ### The field-substitution loop -/

theorem substituteFields_cons_inv (C : BlockCipher) (app_key : String)
    (k0 : String) (ks' : List String) (md out : List (String × JsonVal))
    (h : substituteFields C app_key (k0 :: ks') md = .ok out) :
    ∃ w, substituteFields C app_key ks' (odSet md k0 w) = .ok out
      ∧ ((∃ s d, lookup? md k0 = some (JsonVal.jstr s)
            ∧ decrypt_laravel_string_unsafe C s app_key = .ok d ∧ w = JsonVal.jstr d)
        ∨ ((∀ s, lookup? md k0 ≠ some (JsonVal.jstr s)) ∧ w = JsonVal.jnull)) := by
  rw [substituteFields] at h
  cases hl : lookup? md k0 with
  | none =>
    simp only [hl] at h
    refine ⟨JsonVal.jnull, h, Or.inr ⟨?_, rfl⟩⟩
    intro s hs
    cases hs
  | some v =>
    cases v with
    | jstr s =>
      simp only [hl] at h
      cases hd : decrypt_laravel_string_unsafe C s app_key with
      | error e => simp only [hd] at h; cases h
      | ok dstr =>
        simp only [hd] at h
        exact ⟨JsonVal.jstr dstr, h, Or.inl ⟨s, dstr, rfl, hd, rfl⟩⟩
    | jnull =>
      simp only [hl] at h
      refine ⟨JsonVal.jnull, h, Or.inr ⟨?_, rfl⟩⟩
      intro s hs
      simp at hs
    | jbool b =>
      simp only [hl] at h
      refine ⟨JsonVal.jnull, h, Or.inr ⟨?_, rfl⟩⟩
      intro s hs
      simp at hs
    | jnum n =>
      simp only [hl] at h
      refine ⟨JsonVal.jnull, h, Or.inr ⟨?_, rfl⟩⟩
      intro s hs
      simp at hs
    | jarr es =>
      simp only [hl] at h
      refine ⟨JsonVal.jnull, h, Or.inr ⟨?_, rfl⟩⟩
      intro s hs
      simp at hs
    | jobj ms =>
      simp only [hl] at h
      refine ⟨JsonVal.jnull, h, Or.inr ⟨?_, rfl⟩⟩
      intro s hs
      simp at hs

theorem substituteFields_ok_lookup (C : BlockCipher) (app_key : String) :
    ∀ (ks : List String) (md out : List (String × JsonVal)), ks.Nodup →
      substituteFields C app_key ks md = .ok out →
      (∀ k, k ∉ ks → lookup? out k = lookup? md k)
      ∧ (∀ k ∈ ks,
          (∃ s d, lookup? md k = some (JsonVal.jstr s)
            ∧ decrypt_laravel_string_unsafe C s app_key = .ok d
            ∧ lookup? out k = some (JsonVal.jstr d))
          ∨ ((∀ s, lookup? md k ≠ some (JsonVal.jstr s))
            ∧ lookup? out k = some JsonVal.jnull)) := by
  intro ks
  induction ks with
  | nil =>
    intro md out _ h
    rw [substituteFields] at h
    injection h with h
    subst h
    exact ⟨fun k _ => rfl, fun k hk => absurd hk (List.not_mem_nil k)⟩
  | cons k0 ks' ih =>
    intro md out hnodup h
    obtain ⟨w, hrec, hw⟩ := substituteFields_cons_inv C app_key k0 ks' md out h
    have hk0notin : k0 ∉ ks' := (List.nodup_cons.mp hnodup).1
    have hnodup' : ks'.Nodup := (List.nodup_cons.mp hnodup).2
    obtain ⟨ihu, ihv⟩ := ih (odSet md k0 w) out hnodup' hrec
    constructor
    · intro k hk
      have hkne : k ≠ k0 := fun hc => hk (hc ▸ List.mem_cons_self k0 ks')
      have hk' : k ∉ ks' := fun hc => hk (List.mem_cons_of_mem k0 hc)
      rw [ihu k hk', lookup?_odSet, if_neg hkne]
    · intro k hkmem
      rcases List.mem_cons.mp hkmem with rfl | hkmem'
      · have hout : lookup? out k = some w := by
          rw [ihu k hk0notin, lookup?_odSet, if_pos rfl]
        rcases hw with ⟨s, d, hs, hd, rfl⟩ | ⟨hnostr, rfl⟩
        · exact Or.inl ⟨s, d, hs, hd, hout⟩
        · exact Or.inr ⟨hnostr, hout⟩
      · have hkne : k ≠ k0 := fun hc => hk0notin (hc ▸ hkmem')
        have htrans : lookup? (odSet md k0 w) k = lookup? md k := by
          rw [lookup?_odSet, if_neg hkne]
        rcases ihv k hkmem' with ⟨s, d, hs, hd, ho⟩ | ⟨hnostr, ho⟩
        · exact Or.inl ⟨s, d, htrans ▸ hs, hd, ho⟩
        · refine Or.inr ⟨?_, ho⟩
          intro s hs
          exact hnostr s (by rw [htrans]; exact hs)

theorem substituteFields_ok_keys (C : BlockCipher) (app_key : String) :
    ∀ (ks : List String) (md out : List (String × JsonVal)),
      substituteFields C app_key ks md = .ok out →
      (∀ k', k' ∈ recKeys out ↔ k' ∈ recKeys md ∨ k' ∈ ks)
      ∧ ((recKeys md).Nodup → (recKeys out).Nodup) := by
  intro ks
  induction ks with
  | nil =>
    intro md out h
    rw [substituteFields] at h
    injection h with h
    subst h
    exact ⟨fun k' => by simp, fun hn => hn⟩
  | cons k0 ks' ih =>
    intro md out h
    obtain ⟨w, hrec, _⟩ := substituteFields_cons_inv C app_key k0 ks' md out h
    obtain ⟨ihm, ihn⟩ := ih (odSet md k0 w) out hrec
    constructor
    · intro k'
      rw [ihm k', mem_recKeys_odSet, List.mem_cons]
      constructor
      · rintro ((hm | rfl) | hm)
        · exact Or.inl hm
        · exact Or.inr (Or.inl rfl)
        · exact Or.inr (Or.inr hm)
      · rintro (hm | rfl | hm)
        · exact Or.inl (Or.inl hm)
        · exact Or.inl (Or.inr rfl)
        · exact Or.inr hm
    · intro hn
      exact ihn (recKeys_odSet_nodup md k0 w hn)

/-! ### The key-reordering pass -/

theorem reorder_phase1 {α : Type} (rec : List (String × α)) :
    ∀ (order : List String) (acc : List (String × α)), order.Nodup →
      (∀ k ∈ order, k ∉ recKeys acc) →
      order.foldl (fun acc k =>
          match lookup? rec k with
          | some v => odSet acc k v
          | none => acc) acc
        = acc ++ order.filterMap (fun k => (lookup? rec k).map (fun v => (k, v))) := by
  intro order
  induction order with
  | nil => intro acc _ _; simp
  | cons k0 order' ih =>
    intro acc hnodup hdisj
    simp only [List.foldl_cons, List.filterMap_cons]
    cases hl : lookup? rec k0 with
    | none =>
      simp only [hl, Option.map_none']
      rw [ih acc (List.nodup_cons.mp hnodup).2
        (fun k hk => hdisj k (List.mem_cons_of_mem _ hk))]
    | some v =>
      simp only [hl, Option.map_some']
      rw [odSet_of_not_mem acc k0 v (hdisj k0 (List.mem_cons_self _ _))]
      have hdisj' : ∀ k ∈ order', k ∉ recKeys (acc ++ [(k0, v)]) := by
        intro k hk hmem
        rw [recKeys, List.map_append] at hmem
        rcases List.mem_append.mp hmem with hm | hm
        · exact hdisj k (List.mem_cons_of_mem _ hk) hm
        · simp at hm
          subst hm
          exact (List.nodup_cons.mp hnodup).1 hk
      rw [ih (acc ++ [(k0, v)]) (List.nodup_cons.mp hnodup).2 hdisj', List.append_assoc]
      rfl

theorem reorder_phase2 {α : Type} :
    ∀ (ps acc : List (String × α)), (recKeys ps).Nodup →
      ps.foldl (fun acc p =>
          if acc.any (fun q => q.1 == p.1) then acc else acc ++ [(p.1, p.2)]) acc
        = acc ++ ps.filter (fun p => ! acc.any (fun q => q.1 == p.1)) := by
  intro ps
  induction ps with
  | nil => intro acc _; simp
  | cons p ps' ih =>
    intro acc hnodup
    have hre : recKeys (p :: ps') = p.1 :: recKeys ps' := rfl
    rw [hre] at hnodup
    obtain ⟨hp1, hnodup'⟩ := List.nodup_cons.mp hnodup
    simp only [List.foldl_cons, List.filter_cons]
    by_cases hany : acc.any (fun q => q.1 == p.1) = true
    · rw [if_pos hany, if_neg (by rw [hany]; simp)]
      exact ih acc hnodup'
    · have hany' : acc.any (fun q => q.1 == p.1) = false := by
        cases hb : acc.any (fun q => q.1 == p.1)
        · rfl
        · exact absurd hb hany
      rw [if_neg (by rw [hany']; simp), if_pos (by rw [hany']; simp)]
      rw [ih (acc ++ [(p.1, p.2)]) hnodup']
      have hfilter : ps'.filter (fun q => ! (acc ++ [(p.1, p.2)]).any (fun r => r.1 == q.1))
          = ps'.filter (fun q => ! acc.any (fun r => r.1 == q.1)) := by
        apply List.filter_congr
        intro q hq
        have hqne : (p.1 == q.1) = false := by
          apply beq_eq_false_iff_ne.mpr
          intro hc
          exact hp1 (hc ▸ List.mem_map.mpr ⟨q, hq, rfl⟩)
        rw [List.any_append]
        have hone : ([(p.1, p.2)] : List (String × α)).any (fun r => r.1 == q.1) = false := by
          simp [hqne]
        rw [hone, Bool.or_false]
      rw [hfilter, List.append_assoc]
      rfl

theorem recKeys_filterMap_sel {α : Type} (rec : List (String × α)) :
    ∀ order : List String,
      recKeys (order.filterMap (fun k => (lookup? rec k).map (fun v => (k, v))))
        = order.filter (fun k => (lookup? rec k).isSome) := by
  intro order
  induction order with
  | nil => rfl
  | cons k0 order' ih =>
    rw [List.filterMap_cons, List.filter_cons]
    cases hl : lookup? rec k0 with
    | none => simp only [hl, Option.map_none', Option.isSome_none, ih]; rfl
    | some v =>
      simp only [hl, Option.map_some', Option.isSome_some]
      rw [if_pos (by trivial)]
      have hre : recKeys ((k0, v) :: order'.filterMap
          (fun k => (lookup? rec k).map (fun v => (k, v))))
          = k0 :: recKeys (order'.filterMap (fun k => (lookup? rec k).map (fun v => (k, v)))) :=
        rfl
      rw [hre, ih]

theorem lookup?_filterMap_sel {α : Type} (rec : List (String × α)) :
    ∀ (order : List String), order.Nodup → ∀ k,
      lookup? (order.filterMap (fun k => (lookup? rec k).map (fun v => (k, v)))) k
        = if k ∈ order then lookup? rec k else none := by
  intro order
  induction order with
  | nil => intro _ k; simp [lookup?]
  | cons k0 order' ih =>
    intro hnodup k
    obtain ⟨hk0, hnodup'⟩ := List.nodup_cons.mp hnodup
    rw [List.filterMap_cons]
    cases hl : lookup? rec k0 with
    | none =>
      simp only [hl, Option.map_none']
      rw [ih hnodup' k]
      by_cases hk : k ∈ k0 :: order'
      · rcases List.mem_cons.mp hk with rfl | hm
        · rw [if_pos hk]
          by_cases hm' : k ∈ order'
          · rw [if_pos hm']
          · rw [if_neg hm', hl]
        · rw [if_pos hm, if_pos hk]
      · rw [if_neg (fun hm => hk (List.mem_cons_of_mem _ hm)), if_neg hk]
    | some v =>
      simp only [hl, Option.map_some']
      rw [lookup?_cons]
      by_cases h : k0 = k
      · rw [if_pos h, ← h, if_pos (List.mem_cons_self _ _), hl]
      · rw [if_neg h, ih hnodup' k]
        by_cases hm : k ∈ order'
        · rw [if_pos hm, if_pos (List.mem_cons_of_mem _ hm)]
        · rw [if_neg hm, if_neg]
          intro hc
          rcases List.mem_cons.mp hc with rfl | hc'
          · exact h rfl
          · exact hm hc'

theorem lookup?_isSome_eq_decide {α : Type} (rec : List (String × α)) (k : String) :
    (lookup? rec k).isSome = decide (k ∈ recKeys rec) := by
  by_cases hm : k ∈ recKeys rec
  · rw [(lookup?_isSome_iff rec k).mpr hm, decide_eq_true hm]
  · rw [lookup?_eq_none_of_not_mem rec k hm]
    simp [hm]

theorem reorderKeys_spec {α : Type} (order : List String) (rec : List (String × α))
    (horder : order.Nodup) (hrec : (recKeys rec).Nodup) :
    (∀ k, lookup? (reorderKeys order rec) k = lookup? rec k)
    ∧ recKeys (reorderKeys order rec)
        = order.filter (fun k => decide (k ∈ recKeys rec))
          ++ (recKeys rec).filter (fun k => decide (k ∉ order)) := by
  set sel : List (String × α) :=
    order.filterMap (fun k => (lookup? rec k).map (fun v => (k, v))) with hsel
  have heq : reorderKeys order rec
      = sel ++ rec.filter (fun p => ! sel.any (fun q => q.1 == p.1)) := by
    rw [reorderKeys, reorder_phase1 rec order [] horder
      (by intro k _ hm; exact absurd hm (List.not_mem_nil k)),
      List.nil_append, reorder_phase2 rec sel hrec]
  have hselkeys : ∀ k, k ∈ recKeys sel ↔ k ∈ order ∧ k ∈ recKeys rec := by
    intro k
    rw [hsel, recKeys_filterMap_sel, List.mem_filter, lookup?_isSome_eq_decide]
    simp
  constructor
  · intro k
    rw [heq, lookup?_append, lookup?_filterMap_sel rec order horder k]
    by_cases hko : k ∈ order
    · rw [if_pos hko]
      cases hl : lookup? rec k with
      | none => rw [lookup?_filter_none rec k _ hl]
      | some v => rfl
    · rw [if_neg hko]
      apply lookup?_filter_of_key_pred
      intro p _ hpk
      have hnot : ¬ (sel.any (fun q => q.1 == p.1) = true) := by
        intro hc
        have := (hselkeys p.1).mp ((any_key_iff sel p.1).mp hc)
        exact hko (hpk ▸ this.1)
      cases hb : sel.any (fun q => q.1 == p.1)
      · rfl
      · exact absurd hb hnot
  · rw [heq, recKeys, List.map_append]
    have h1 : List.map Prod.fst sel = order.filter (fun k => decide (k ∈ recKeys rec)) := by
      rw [show List.map (Prod.fst : String × α → String) sel = recKeys sel from rfl,
        hsel, recKeys_filterMap_sel]
      apply List.filter_congr
      intro k _
      exact lookup?_isSome_eq_decide rec k
    have h2 : List.map Prod.fst (rec.filter (fun p => ! sel.any (fun q => q.1 == p.1)))
        = (recKeys rec).filter (fun k => decide (k ∉ order)) := by
      have hcomm : rec.filter (fun p => ! sel.any (fun q => q.1 == p.1))
          = rec.filter ((fun k => ! sel.any (fun q => q.1 == k)) ∘ Prod.fst) := rfl
      rw [hcomm, ← List.filter_map]
      rw [show List.map (Prod.fst : String × α → String) rec = recKeys rec from rfl]
      apply List.filter_congr
      intro k hk
      by_cases hko : k ∈ order
      · have hin : k ∈ recKeys sel := (hselkeys k).mpr ⟨hko, hk⟩
        rw [(any_key_iff sel k).mpr hin]
        simp [hko]
      · have hnot : ¬ (sel.any (fun q => q.1 == k) = true) := by
          intro hc
          exact hko ((hselkeys k).mp ((any_key_iff sel k).mp hc)).1
        have hfalse : sel.any (fun q => q.1 == k) = false := by
          cases hb : sel.any (fun q => q.1 == k)
          · rfl
          · exact absurd hb hnot
        rw [hfalse]
        simp [hko]
    rw [h1, h2]

/-- C6: the rebuilt record lists the order-spec names present in the record
first, in spec sequence, then the remaining keys in their original relative
order, and no value changes; instantiated on order `[id, stream]` and record
`{download: "x", id: 1, stream: "y"}` the key order is `[id, stream,
download]`. -/
theorem claim_C6 :
    (∀ (order : List String) (rec : List (String × JsonVal)),
      order.Nodup → (recKeys rec).Nodup →
      recKeys (reorderKeys order rec)
          = order.filter (fun k => decide (k ∈ recKeys rec))
            ++ (recKeys rec).filter (fun k => decide (k ∉ order))
        ∧ (∀ k, lookup? (reorderKeys order rec) k = lookup? rec k))
    ∧ recKeys (reorderKeys (["id", "stream"])
        ([(("download" : String), JsonVal.jstr ("x")),
          (("id" : String), JsonVal.jnum 1),
          (("stream" : String), JsonVal.jstr ("y"))]))
      = ["id", "stream", "download"] := by
  constructor
  · intro order rec h1 h2
    obtain ⟨hl, hk⟩ := reorderKeys_spec order rec h1 h2
    exact ⟨hk, hl⟩
  · rfl

theorem claim_C6_witness :
    lookup? (reorderKeys (["a"]) ([(("b" : String), JsonVal.jnull)])) ("b")
      = some JsonVal.jnull := by
  have h := (claim_C6.1 (["a"]) ([(("b" : String), JsonVal.jnull)])
    (by decide) (by decide)).2
  rw [h ("b")]
  rfl

/-- C1 counterexample: the normalization does not preserve the key set — an
encrypted-field name absent from the input is added with value `None`
(src/app.py line 190).  On the record `{id: 1}` all seven encrypted keys
appear in the output. -/
theorem claim_C1_counterexample :
    processMovieData idCipher ("k") ([(("id" : String), JsonVal.jnum 1)])
      = .ok ([(("id" : String), JsonVal.jnum 1),
          (("vstream" : String), JsonVal.jnull),
          (("stream" : String), JsonVal.jnull),
          (("astream" : String), JsonVal.jnull),
          (("freemium" : String), JsonVal.jnull),
          (("download" : String), JsonVal.jnull),
          (("vdownload2" : String), JsonVal.jnull),
          (("vbackup" : String), JsonVal.jnull)])
    ∧ (["id", "vstream", "stream", "astream", "freemium", "download",
        "vdownload2", "vbackup"] : List String) ≠ ["id"] :=
  ⟨rfl, by decide⟩

/-- C1 (amended): the output key set is the input key set united with the
seven encrypted-field names (an absent encrypted field is added as `None`,
nothing is dropped), and every key outside the seven keeps its value. -/
theorem claim_C1_amended (C : BlockCipher) (app_key : String)
    (md out : List (String × JsonVal)) (hnodup : (recKeys md).Nodup)
    (h : processMovieData C app_key md = .ok out) :
    (∀ k, k ∈ recKeys out ↔ k ∈ recKeys md ∨ k ∈ encrypted_url_keys)
    ∧ (∀ k, k ∉ encrypted_url_keys → lookup? out k = lookup? md k) := by
  rw [processMovieData] at h
  cases hs : substituteFields C app_key encrypted_url_keys md with
  | error e => rw [hs] at h; cases h
  | ok md1 =>
    rw [hs] at h
    injection h with h
    subst h
    obtain ⟨hkeys, hnd⟩ := substituteFields_ok_keys C app_key encrypted_url_keys md md1 hs
    have hnd1 : (recKeys md1).Nodup := hnd hnodup
    have hPREF : PREFERRED_MOVIE_KEY_ORDER.Nodup := by decide
    obtain ⟨hlook, hk⟩ := reorderKeys_spec PREFERRED_MOVIE_KEY_ORDER md1 hPREF hnd1
    have hmem : ∀ k, k ∈ recKeys (reorderKeys PREFERRED_MOVIE_KEY_ORDER md1)
        ↔ k ∈ recKeys md1 := by
      intro k
      rw [hk, List.mem_append, List.mem_filter, List.mem_filter]
      constructor
      · rintro (⟨_, h2⟩ | ⟨h1, _⟩)
        · exact of_decide_eq_true h2
        · exact h1
      · intro hmem
        by_cases hp : k ∈ PREFERRED_MOVIE_KEY_ORDER
        · exact Or.inl ⟨hp, decide_eq_true hmem⟩
        · exact Or.inr ⟨hmem, decide_eq_true hp⟩
    constructor
    · intro k
      rw [hmem k, hkeys k]
    · intro k hk'
      obtain ⟨hu, _⟩ := substituteFields_ok_lookup C app_key encrypted_url_keys md md1
        (by decide) hs
      rw [hlook k, hu k hk']

theorem claim_C1_witness :
    lookup? ([(("id" : String), JsonVal.jnum 7),
        (("vstream" : String), JsonVal.jnull),
        (("stream" : String), JsonVal.jnull),
        (("astream" : String), JsonVal.jnull),
        (("freemium" : String), JsonVal.jnull),
        (("download" : String), JsonVal.jnull),
        (("vdownload2" : String), JsonVal.jnull),
        (("vbackup" : String), JsonVal.jnull)]) ("id")
      = some (JsonVal.jnum 7) := by
  have h := claim_C1_amended idCipher ("k")
    ([(("id" : String), JsonVal.jnum 7), (("vstream" : String), JsonVal.jnum 2)])
    ([(("id" : String), JsonVal.jnum 7),
      (("vstream" : String), JsonVal.jnull),
      (("stream" : String), JsonVal.jnull),
      (("astream" : String), JsonVal.jnull),
      (("freemium" : String), JsonVal.jnull),
      (("download" : String), JsonVal.jnull),
      (("vdownload2" : String), JsonVal.jnull),
      (("vbackup" : String), JsonVal.jnull)])
    (by decide) rfl
  rw [h.2 ("id") (by decide)]
  rfl

/-- C9: in a successful endpoint response all seven encrypted field names
are present: a string-valued upstream field holds the string returned by the
decryption routine (recovered plaintext or failure message), and an absent
or non-string upstream field is set to `None`. -/
theorem claim_C9 (C : BlockCipher) (app_key : String)
    (md out : List (String × JsonVal)) (hnodup : (recKeys md).Nodup)
    (h : get_movie_details C (some app_key) md = .success out) :
    ∀ k ∈ encrypted_url_keys,
      (∃ s d, lookup? md k = some (JsonVal.jstr s)
        ∧ decrypt_laravel_string_unsafe C s app_key = .ok d
        ∧ lookup? out k = some (JsonVal.jstr d))
      ∨ ((∀ s, lookup? md k ≠ some (JsonVal.jstr s))
        ∧ lookup? out k = some JsonVal.jnull) := by
  rw [get_movie_details] at h
  by_cases hke : app_key = ""
  · rw [if_pos hke] at h
    cases h
  · rw [if_neg hke] at h
    rw [processMovieData] at h
    cases hs : substituteFields C app_key encrypted_url_keys md with
    | error e => rw [hs] at h; cases h
    | ok md1 =>
      rw [hs] at h
      injection h with h
      subst h
      obtain ⟨_, hnd⟩ := substituteFields_ok_keys C app_key encrypted_url_keys md md1 hs
      have hnd1 : (recKeys md1).Nodup := hnd hnodup
      have hPREF : PREFERRED_MOVIE_KEY_ORDER.Nodup := by decide
      obtain ⟨hlook, _⟩ := reorderKeys_spec PREFERRED_MOVIE_KEY_ORDER md1 hPREF hnd1
      obtain ⟨_, hv⟩ := substituteFields_ok_lookup C app_key encrypted_url_keys md md1
        (by decide) hs
      intro k hkmem
      rcases hv k hkmem with ⟨s, d, hsv, hd, ho⟩ | ⟨hnostr, ho⟩
      · exact Or.inl ⟨s, d, hsv, hd, by rw [hlook k, ho]⟩
      · exact Or.inr ⟨hnostr, by rw [hlook k, ho]⟩

theorem claim_C9_witness :
    lookup? ([(("id" : String), JsonVal.jnum 5),
        (("vstream" : String), JsonVal.jnull),
        (("stream" : String), JsonVal.jnull),
        (("astream" : String), JsonVal.jnull),
        (("freemium" : String), JsonVal.jnull),
        (("download" : String), JsonVal.jnull),
        (("vdownload2" : String), JsonVal.jnull),
        (("vbackup" : String), JsonVal.jnull)]) ("stream")
      = some JsonVal.jnull := by
  have h := claim_C9 idCipher witnessKey ([(("id" : String), JsonVal.jnum 5)])
    ([(("id" : String), JsonVal.jnum 5),
      (("vstream" : String), JsonVal.jnull),
      (("stream" : String), JsonVal.jnull),
      (("astream" : String), JsonVal.jnull),
      (("freemium" : String), JsonVal.jnull),
      (("download" : String), JsonVal.jnull),
      (("vdownload2" : String), JsonVal.jnull),
      (("vbackup" : String), JsonVal.jnull)])
    (by decide) rfl ("stream") (by decide)
  rcases h with ⟨s, d, hsv, _, _⟩ | ⟨_, ho⟩
  · rw [show lookup? ([(("id" : String), JsonVal.jnum 5)]) ("stream") = none from rfl] at hsv
    cases hsv
  · exact ho
